import Mathlib

set_option linter.unreachableTactic false
set_option linter.unusedTactic false

/-!
# Verification of the propositional entailment engine

This development embeds the core of the `fitch-protocol-experiment`
repository — the string-level formula parser / Tseitin encoder
`formula_to_clauses`, the entailment and contradiction checks built on a
SAT oracle, the minimal-premise filter, the random formula generator and
the symbol standardizer — as executable Lean definitions, and proves (or
refutes) the specified properties about them.

Conventions:
* Python strings are modelled as `List Char` (with `String` wrappers at
  the API boundary), Python `int` literals in clauses as `Int`, and the
  variable counter as `Nat` (it is always a positive machine integer).
* Python exceptions are modelled by `Except PyErr`, with
  `PyErr.valueError msg` for `ValueError(msg)` and `PyErr.indexError`
  for the `IndexError` raised by `[0]` on an empty list.
* The external SAT oracle (pysat's `Glucose3`) is not repository code;
  following the spec it is an external collaborator with the contract
  `solve(clauses) = satisfiable?`.  It is modelled by an executable
  decision procedure `solve` together with the proof `solve_iff` that it
  meets exactly that contract.
-/

/-! ## CNF semantics and the SAT oracle -/

/-- Truth value of a DIMACS-style literal (a nonzero integer) under an
assignment of booleans to the positive variable indices. -/
def evalLit (σ : Nat → Bool) (l : Int) : Bool :=
  if 0 < l then σ l.natAbs else !(σ l.natAbs)

/-- Truth value of a clause (disjunction of its literals). -/
def evalClause (σ : Nat → Bool) (c : List Int) : Bool :=
  c.any (evalLit σ)

/-- Truth value of a CNF clause set (conjunction of its clauses). -/
def evalCnf (σ : Nat → Bool) (w : List (List Int)) : Bool :=
  w.all (evalClause σ)

/-- A clause set is satisfiable when some assignment makes every clause
true. -/
def Satisfiable (w : List (List Int)) : Prop :=
  ∃ σ : Nat → Bool, evalCnf σ w = true

/-- Largest variable index mentioned in a clause. -/
def clauseMaxVar (c : List Int) : Nat :=
  c.foldr (fun l m => max l.natAbs m) 0

/-- Largest variable index mentioned in a clause set. -/
def maxVar (w : List (List Int)) : Nat :=
  w.foldr (fun c m => max (clauseMaxVar c) m) 0

theorem le_clauseMaxVar {c : List Int} {l : Int} (h : l ∈ c) :
    l.natAbs ≤ clauseMaxVar c := by
  induction c with
  | nil => cases h
  | cons a t ih =>
    simp only [clauseMaxVar, List.foldr_cons]
    rcases List.mem_cons.mp h with h | h
    · exact h ▸ le_max_left _ _
    · exact le_max_of_le_right (ih h)

theorem le_maxVar {w : List (List Int)} {c : List Int} {l : Int}
    (hc : c ∈ w) (hl : l ∈ c) : l.natAbs ≤ maxVar w := by
  induction w with
  | nil => cases hc
  | cons a t ih =>
    simp only [maxVar, List.foldr_cons]
    rcases List.mem_cons.mp hc with hc | hc
    · exact hc ▸ le_max_of_le_left (le_clauseMaxVar hl)
    · exact le_max_of_le_right (ih hc)

theorem evalLit_congr {σ σ₂ : Nat → Bool} {l : Int}
    (h : σ l.natAbs = σ₂ l.natAbs) : evalLit σ l = evalLit σ₂ l := by
  unfold evalLit
  split <;> rw [h]

theorem evalClause_congr {σ σ₂ : Nat → Bool} {c : List Int} {n : Nat}
    (hb : ∀ l ∈ c, l.natAbs ≤ n) (h : ∀ k, k ≤ n → σ k = σ₂ k) :
    evalClause σ c = evalClause σ₂ c := by
  unfold evalClause
  induction c with
  | nil => rfl
  | cons a t ih =>
    simp only [List.any_cons]
    rw [evalLit_congr (h _ (hb a (by simp))),
      ih (fun l hl => hb l (by simp [hl]))]

theorem evalCnf_congr {σ σ₂ : Nat → Bool} {w : List (List Int)} {n : Nat}
    (hb : ∀ c ∈ w, ∀ l ∈ c, l.natAbs ≤ n) (h : ∀ k, k ≤ n → σ k = σ₂ k) :
    evalCnf σ w = evalCnf σ₂ w := by
  unfold evalCnf
  induction w with
  | nil => rfl
  | cons a t ih =>
    simp only [List.all_cons]
    rw [evalClause_congr (hb a (by simp)) h,
      ih (fun c hc => hb c (by simp [hc]))]

theorem evalCnf_append (σ : Nat → Bool) (w₁ w₂ : List (List Int)) :
    evalCnf σ (w₁ ++ w₂) = (evalCnf σ w₁ && evalCnf σ w₂) := by
  unfold evalCnf
  exact List.all_append

theorem evalLit_neg {σ : Nat → Bool} {l : Int} (h : l ≠ 0) :
    evalLit σ (-l) = !(evalLit σ l) := by
  unfold evalLit
  rcases lt_trichotomy l 0 with hl | hl | hl
  · rw [if_pos (show (0 : Int) < -l by omega), if_neg (show ¬(0 : Int) < l by omega),
      Int.natAbs_neg, Bool.not_not]
  · exact absurd hl h
  · rw [if_neg (show ¬(0 : Int) < -l by omega), if_pos hl, Int.natAbs_neg]

theorem evalLit_natCast (σ : Nat → Bool) {v : Nat} (h : 1 ≤ v) :
    evalLit σ (v : Int) = σ v := by
  unfold evalLit
  rw [if_pos (by exact_mod_cast h), Int.natAbs_ofNat]

theorem evalLit_neg_natCast (σ : Nat → Bool) {v : Nat} (h : 1 ≤ v) :
    evalLit σ (-(v : Int)) = !(σ v) := by
  rw [evalLit_neg (show (v : Int) ≠ 0 by exact_mod_cast Nat.one_le_iff_ne_zero.mp h),
    evalLit_natCast σ h]

/-- Pack the first `n` values of an assignment into the bits of a
natural number. -/
def natOfAssign (σ : Nat → Bool) : Nat → Nat
  | 0 => 0
  | n + 1 => natOfAssign σ n + (if σ n then 2 ^ n else 0)

theorem natOfAssign_lt (σ : Nat → Bool) (n : Nat) :
    natOfAssign σ n < 2 ^ n := by
  induction n with
  | zero => simp [natOfAssign]
  | succ n ih =>
    have h2 : 2 ^ (n + 1) = 2 ^ n + 2 ^ n := by ring
    unfold natOfAssign
    split <;> omega

theorem testBit_natOfAssign (σ : Nat → Bool) :
    ∀ n i, i < n → (natOfAssign σ n).testBit i = σ i := by
  intro n
  induction n with
  | zero => omega
  | succ n ih =>
    intro i hi
    have hlt := natOfAssign_lt σ n
    unfold natOfAssign
    rcases Nat.lt_succ_iff_lt_or_eq.mp hi with hi2 | hi2
    · have ihh := ih i hi2
      by_cases hσ : σ n = true
      · rw [if_pos hσ]
        rw [Nat.testBit_to_div_mod] at ihh ⊢
        have hsplit : 2 ^ n = 2 ^ i * 2 ^ (n - i) := by
          rw [← pow_add]
          congr 1
          omega
        have hne : n - i ≠ 0 := by omega
        have heven : 2 ^ (n - i) % 2 = 0 := by
          rcases Nat.exists_eq_succ_of_ne_zero hne with ⟨m, hm⟩
          rw [hm, pow_succ]
          exact Nat.mul_mod_left _ _
        rw [hsplit, Nat.add_mul_div_left _ _ (Nat.pos_pow_of_pos i (by norm_num)),
          Nat.add_mod, heven]
        simpa using ihh
      · rw [if_neg hσ, Nat.add_zero]
        exact ihh
    · subst hi2
      rw [Nat.testBit_to_div_mod]
      have hz : natOfAssign σ i / 2 ^ i = 0 := Nat.div_eq_of_lt hlt
      by_cases hσ : σ i = true
      · rw [if_pos hσ, Nat.add_div_right _ (Nat.pos_pow_of_pos i (by norm_num)), hz, hσ]
        rfl
      · have hf : σ i = false := Bool.eq_false_iff.mpr hσ
        rw [if_neg hσ, Nat.add_zero, hz, hf]
        rfl

/-- Modelled from the spec: the external SAT Oracle collaborator (pysat's
`Glucose3`).  Its contract per spec section 6 is
`solve(clauses) -> satisfiable`; it is realized here by exhaustive
enumeration of the assignments to the variables occurring in the clause
set, and `solve_iff` below proves the contract. -/
def solve (w : List (List Int)) : Bool :=
  (List.range (2 ^ (maxVar w + 1))).any fun m => evalCnf (fun i => m.testBit i) w

theorem solve_iff (w : List (List Int)) : solve w = true ↔ Satisfiable w := by
  unfold solve Satisfiable
  rw [List.any_eq_true]
  constructor
  · rintro ⟨m, -, hm⟩
    exact ⟨fun i => m.testBit i, hm⟩
  · rintro ⟨σ, hσ⟩
    refine ⟨natOfAssign σ (maxVar w + 1), List.mem_range.mpr (natOfAssign_lt σ _), ?_⟩
    rw [evalCnf_congr (n := maxVar w) (fun c hc l hl => le_maxVar hc hl)
      (fun k hk => testBit_natOfAssign σ _ k (by omega))]
    exact hσ

/-! ## Formula AST and truth-table semantics

The engine works over the fixed atom alphabet `ATOMS = ['P','Q','R','S']`
(`entailment_finder.py`, line 7), so a truth assignment is a function
`Fin 4 → Bool`.  The AST mirrors the grammar of the generated strings:
atoms, unary `~`, and the binary connectives `&`, `|`, `->`, `<->`. -/

inductive Fml where
  | atom : Fin 4 → Fml
  | not : Fml → Fml
  | and : Fml → Fml → Fml
  | or : Fml → Fml → Fml
  | imp : Fml → Fml → Fml
  | iff : Fml → Fml → Fml
deriving DecidableEq, Repr

/-- Truth value of a formula under an assignment to the four atoms. -/
def evalF (α : Fin 4 → Bool) : Fml → Bool
  | .atom i => α i
  | .not f => !(evalF α f)
  | .and f g => evalF α f && evalF α g
  | .or f g => evalF α f || evalF α g
  | .imp f g => !(evalF α f) || evalF α g
  | .iff f g => evalF α f == evalF α g

/-- Semantic entailment: every assignment satisfying all premises
satisfies the conclusion. -/
def Entails (ps : List Fml) (c : Fml) : Prop :=
  ∀ α : Fin 4 → Bool, (∀ p ∈ ps, evalF α p = true) → evalF α c = true

/-- Joint satisfiability of a premise list (the negation of the engine's
"contradictory premises"). -/
def JointlySat (ps : List Fml) : Prop :=
  ∃ α : Fin 4 → Bool, ∀ p ∈ ps, evalF α p = true

/-- The assignment reading the first four bits of a mask. -/
def assign4 (m : Nat) : Fin 4 → Bool := fun i => m.testBit i.val

theorem assign4_surj (α : Fin 4 → Bool) :
    ∃ m, m < 16 ∧ assign4 m = α := by
  classical
  refine ⟨natOfAssign (fun k => if h : k < 4 then α ⟨k, h⟩ else false) 4, ?_, ?_⟩
  · exact natOfAssign_lt _ 4
  · funext i
    unfold assign4
    rw [testBit_natOfAssign _ 4 i.val i.isLt, dif_pos i.isLt]

/-- Executable version of `Entails` by enumeration of the 16 assignments. -/
def entailsB (ps : List Fml) (c : Fml) : Bool :=
  (List.range 16).all fun m =>
    !(ps.all fun p => evalF (assign4 m) p) || evalF (assign4 m) c

theorem entails_iff_entailsB (ps : List Fml) (c : Fml) :
    Entails ps c ↔ entailsB ps c = true := by
  unfold Entails entailsB
  rw [List.all_eq_true]
  constructor
  · intro h m _
    by_cases hall : (ps.all fun p => evalF (assign4 m) p) = true
    · rw [h (assign4 m) (fun p hp => List.all_eq_true.mp hall p hp)]
      simp
    · simp [Bool.eq_false_iff.mpr hall]
  · intro h α hα
    rcases assign4_surj α with ⟨m, hm, hma⟩
    have := h m (List.mem_range.mpr (by omega))
    rw [hma] at this
    rcases Bool.or_eq_true_iff.mp this with hbad | hc
    · exfalso
      rw [Bool.not_eq_true', Bool.eq_false_iff] at hbad
      exact hbad (List.all_eq_true.mpr hα)
    · exact hc

instance (ps : List Fml) (c : Fml) : Decidable (Entails ps c) :=
  decidable_of_iff _ (entails_iff_entailsB ps c).symm

/-- Executable version of `JointlySat`. -/
def jointlySatB (ps : List Fml) : Bool :=
  (List.range 16).any fun m => ps.all fun p => evalF (assign4 m) p

theorem jointlySat_iff_b (ps : List Fml) :
    JointlySat ps ↔ jointlySatB ps = true := by
  unfold JointlySat jointlySatB
  rw [List.any_eq_true]
  constructor
  · rintro ⟨α, hα⟩
    rcases assign4_surj α with ⟨m, hm, hma⟩
    exact ⟨m, List.mem_range.mpr (by omega), by rw [hma]; exact List.all_eq_true.mpr hα⟩
  · rintro ⟨m, -, hm⟩
    exact ⟨assign4 m, List.all_eq_true.mp hm⟩

instance (ps : List Fml) : Decidable (JointlySat ps) :=
  decidable_of_iff _ (jointlySat_iff_b ps).symm

/-- Whether a formula contains a biconditional node. -/
def hasIff : Fml → Bool
  | .atom _ => false
  | .not f => hasIff f
  | .and f g | .or f g | .imp f g => hasIff f || hasIff g
  | .iff _ _ => true

/-- The atom characters, in `ATOM_MAP` order. -/
def atomChar : Fin 4 → Char
  | 0 => 'P'
  | 1 => 'Q'
  | 2 => 'R'
  | 3 => 'S'

/-- The exact string notation emitted by `generate_formula`
(`entailment_finder.py`, lines 19-34): atoms bare, `(~X)` for negation
and `(X op Y)` for the binary connectives. -/
def renderL : Fml → List Char
  | .atom i => [atomChar i]
  | .not f => '(' :: '~' :: (renderL f ++ [')'])
  | .and f g => '(' :: (renderL f ++ ' ' :: '&' :: ' ' :: (renderL g ++ [')']))
  | .or f g => '(' :: (renderL f ++ ' ' :: '|' :: ' ' :: (renderL g ++ [')']))
  | .imp f g => '(' :: (renderL f ++ ' ' :: '-' :: '>' :: ' ' :: (renderL g ++ [')']))
  | .iff f g => '(' :: (renderL f ++ ' ' :: '<' :: '-' :: '>' :: ' ' :: (renderL g ++ [')']))

/-- String-typed rendering. -/
def render (f : Fml) : String := String.mk (renderL f)

/-! ## Embedding of the source (`entailment_finder.py`)

Python string primitives are modelled on `List Char`:
`pyStrip` is `str.strip()`, `pySplit` is `str.split()` (split on
whitespace runs, dropping empties), and `pyIntTake`/`pyIntDrop` are the
slices `s[:i]` / `s[i:]` for a possibly negative Python index `i`. -/

/-- Python `str.strip()` from the left. -/
def lstripWS (cs : List Char) : List Char := cs.dropWhile Char.isWhitespace

/-- Python `str.strip()` from the right. -/
def rstripWS (cs : List Char) : List Char := (lstripWS cs.reverse).reverse

/-- Python `str.strip()`. -/
def pyStrip (cs : List Char) : List Char := rstripWS (lstripWS cs)

/-- Python `str.split()`: split on whitespace runs, no empty tokens.
The accumulator holds the current token reversed. -/
def pySplitAux : List Char → List Char → List (List Char)
  | [], acc => if acc = [] then [] else [acc.reverse]
  | c :: rest, acc =>
    if c.isWhitespace then
      if acc = [] then pySplitAux rest [] else acc.reverse :: pySplitAux rest []
    else pySplitAux rest (c :: acc)

/-- Python `str.split()`. -/
def pySplit (cs : List Char) : List (List Char) := pySplitAux cs []

/-- Python slice `s[i:]` for an `Int` index (clamped like Python). -/
def pyIntDrop (cs : List Char) (i : Int) : List Char :=
  if 0 ≤ i then cs.drop i.toNat else cs.drop (cs.length - (-i).toNat)

/-- Python slice `s[:i]` for an `Int` index (clamped like Python). -/
def pyIntTake (cs : List Char) (i : Int) : List Char :=
  if 0 ≤ i then cs.take i.toNat else cs.take (cs.length - (-i).toNat)

/-- `ATOMS = ['P', 'Q', 'R', 'S']` (`entailment_finder.py`, line 7). -/
def ATOMS : List String := ["P", "Q", "R", "S"]

/-- `ATOM_MAP = {atom: i + 1 for i, atom in enumerate(ATOMS)}`
(`entailment_finder.py`, line 17). -/
def ATOM_MAP : List (String × Int) := [("P", 1), ("Q", 2), ("R", 3), ("S", 4)]

/-- Python exceptions raised by the engine: `ValueError(msg)` from the
parser's explicit `raise`, and the `IndexError` from `split()[0]` on an
empty token list. -/
inductive PyErr where
  | valueError : String → PyErr
  | indexError : PyErr
deriving DecidableEq, Repr

/-- The operator scan of `formula_to_clauses`
(`entailment_finder.py`, lines 63-79): walk the content tracking the
parenthesis balance; at a character in `' &|-'` with balance `0`, match
`'<->'`, then `'->'`, then a single `'&'`/`'|'`, and return that index.
Like the Python loop it returns `none` when no break occurs (the Python
code then proceeds with `split_idx == -1`). -/
def findSplit : List Char → Int → Nat → Option Nat
  | [], _, _ => none
  | c :: rest, bal, i =>
    if c = '(' then findSplit rest (bal + 1) (i + 1)
    else if c = ')' then findSplit rest (bal - 1) (i + 1)
    else if (c = ' ' ∨ c = '&' ∨ c = '|' ∨ c = '-') ∧ bal = 0 then
      if List.isPrefixOf ['<', '-', '>'] (c :: rest) then some i
      else if List.isPrefixOf ['-', '>'] (c :: rest) then some i
      else if c = '&' ∨ c = '|' then some i
      else findSplit rest bal (i + 1)
    else findSplit rest bal (i + 1)

/-- The body of `formula_to_clauses` (`entailment_finder.py`, lines
36-113), fuelled to make the recursion structural.  The fuel only
bounds the recursion depth: every recursive call is on a list at least
two characters shorter, so with `fuel ≥ cs.length` (as supplied by the
`formula_to_clauses` wrapper) the `fuel = 0` fallback inside the
parenthesized branch (which needs `cs.length ≥ 2`) is unreachable.

Returns the literal of the parsed formula together with the updated
clause writer (`wcnf`, to which clauses are appended) and the updated
variable counter (`top_var_ref`). -/
def ftcAux : Nat → List Char → List (List Int) → Nat →
    Except PyErr (Int × List (List Int) × Nat)
  | fuel, cs, w, tv =>
    let s := pyStrip cs
    match ATOM_MAP.lookup (String.mk s) with
    | some n => .ok (n, w, tv)
    | none =>
      if s.head? = some '(' ∧ s.getLast? = some ')' then
        match fuel with
        | 0 => .error (.valueError ("Could not parse formula: " ++ String.mk s))
        | fuel' + 1 =>
          let content := (s.drop 1).dropLast
          if content.head? = some '~' then
            match ftcAux fuel' (content.drop 1) w tv with
            | .error e => .error e
            | .ok (lit, w1, tv1) => .ok (-lit, w1, tv1)
          else
            let splitIdx : Int :=
              match findSplit content 0 0 with
              | some i => (i : Int)
              | none => -1
            match (pySplit (pyIntDrop content splitIdx)).head? with
            | none => .error .indexError
            | some opStr =>
              let leftStr := pyStrip (pyIntTake content splitIdx)
              let rightStr := pyStrip (pyIntDrop content (splitIdx + opStr.length))
              match ftcAux fuel' leftStr w tv with
              | .error e => .error e
              | .ok (a, w1, tv1) =>
                match ftcAux fuel' rightStr w1 tv1 with
                | .error e => .error e
                | .ok (b, w2, tv2) =>
                  let v : Nat := tv2 + 1
                  let defs : List (List Int) :=
                    if opStr = ['&'] then
                      [[-(v : Int), a], [-(v : Int), b], [-a, -b, (v : Int)]]
                    else if opStr = ['|'] then
                      [[-(v : Int), a, b], [-a, (v : Int)], [-b, (v : Int)]]
                    else if opStr = ['-', '>'] then
                      [[-(v : Int), -a, b], [a, (v : Int)], [-b, (v : Int)]]
                    else if opStr = ['<', '-', '>'] then
                      [[-(v : Int), -a, b], [-(v : Int), -b, a],
                       [a, b, (v : Int)], [-a, -b, (v : Int)]]
                    else []
                  .ok ((v : Int), w2 ++ defs, v)
      else .error (.valueError ("Could not parse formula: " ++ String.mk s))

/-- `formula_to_clauses(formula_str, cnf_writer, top_var_ref)`
(`entailment_finder.py`, lines 36-113). -/
def formula_to_clauses (s : String) (w : List (List Int)) (tv : Nat) :
    Except PyErr (Int × List (List Int) × Nat) :=
  ftcAux s.data.length s.data w tv

/-- The premise loop shared by `check_entailment` and
`check_contradiction` (`entailment_finder.py`, lines 122-125 and
140-142): parse each premise into the writer and assert its literal as
a unit hard clause. -/
def addPremises : List String → List (List Int) → Nat →
    Except PyErr (List (List Int) × Nat)
  | [], w, tv => .ok (w, tv)
  | p :: rest, w, tv =>
    match formula_to_clauses p w tv with
    | .error e => .error e
    | .ok (lit, w1, tv1) => addPremises rest (w1 ++ [[lit]]) tv1

/-- `check_entailment(premises, conclusion)` (`entailment_finder.py`,
lines 115-133): unit-assert every premise, unit-assert the negated
conclusion, and report entailment iff the oracle reports UNSAT. -/
def check_entailment (premises : List String) (conclusion : String) :
    Except PyErr Bool :=
  match addPremises premises [] 4 with
  | .error e => .error e
  | .ok (w, tv) =>
    match formula_to_clauses conclusion w tv with
    | .error e => .error e
    | .ok (clit, w2, _) => .ok (!(solve (w2 ++ [[-clit]])))

/-- `check_contradiction(premises)` (`entailment_finder.py`, lines
135-145). -/
def check_contradiction (premises : List String) : Except PyErr Bool :=
  match addPremises premises [] 4 with
  | .error e => .error e
  | .ok (w, _) => .ok (!(solve w))

/-- `premises[:i] + premises[i+1:]` (`entailment_finder.py`, line 183). -/
def removeAt {α : Type} (l : List α) (i : Nat) : List α :=
  l.take i ++ l.drop (i + 1)

/-- Did the check return `ok True`? -/
def okTrue : Except PyErr Bool → Bool
  | .ok true => true
  | _ => false

/-- Did the check return `ok False`? -/
def okFalse : Except PyErr Bool → Bool
  | .ok false => true
  | _ => false

/-- FILTER 3 of the main loop (`entailment_finder.py`, lines 179-188):
`is_necessary` stays `True` iff no single-premise removal leaves a set
that still entails the conclusion; single-premise sets skip the loop.
(In the source an exception inside this loop would propagate; here a
check that does not return `ok True` counts as "still necessary", which
agrees with the source whenever the premises parse, as they must to
reach this filter.) -/
def necessity_filter (premises : List String) (conclusion : String) : Bool :=
  if 1 < premises.length then
    (List.range premises.length).all fun i =>
      !(okTrue (check_entailment (removeAt premises i) conclusion))
  else true

/-- The acceptance test performed by the generate-and-filter loop on a
deduplicated candidate (`entailment_finder.py`, lines 164-191): the
conclusion is not one of the premises (FILTER 1), `check_entailment`
returned `True`, `check_contradiction` returned `False` (FILTER 2), and
every premise is necessary (FILTER 3).  A candidate is appended to
`found_entailments` exactly when all four hold. -/
def accepted (premises : List String) (conclusion : String) : Bool :=
  !(premises.contains conclusion)
    && okTrue (check_entailment premises conclusion)
    && okFalse (check_contradiction premises)
    && necessity_filter premises conclusion

instance {ε α : Type} [DecidableEq ε] [DecidableEq α] :
    DecidableEq (Except ε α) := fun a b =>
  match a, b with
  | .ok x, .ok y =>
    if h : x = y then isTrue (by rw [h]) else isFalse (by intro hc; cases hc; exact h rfl)
  | .error x, .error y =>
    if h : x = y then isTrue (by rw [h]) else isFalse (by intro hc; cases hc; exact h rfl)
  | .ok _, .error _ => isFalse (by intro hc; cases hc)
  | .error _, .ok _ => isFalse (by intro hc; cases hc)

/-! ## Reference AST-level encoder

`encFml f tv` performs exactly the computation `formula_to_clauses`
performs on `render f` (proved below as `ftcAux_render`): it returns the
literal of `f`, the clauses newly appended, and the updated variable
counter. -/

def encFml : Fml → Nat → Int × List (List Int) × Nat
  | .atom i, tv => ((i.val + 1 : Nat), [], tv)
  | .not f, tv =>
    let r := encFml f tv
    (-r.1, r.2.1, r.2.2)
  | .and f g, tv =>
    let r1 := encFml f tv
    let r2 := encFml g r1.2.2
    let v := r2.2.2 + 1
    ((v : Int),
      r1.2.1 ++ r2.2.1 ++ [[-(v : Int), r1.1], [-(v : Int), r2.1], [-r1.1, -r2.1, (v : Int)]],
      v)
  | .or f g, tv =>
    let r1 := encFml f tv
    let r2 := encFml g r1.2.2
    let v := r2.2.2 + 1
    ((v : Int),
      r1.2.1 ++ r2.2.1 ++ [[-(v : Int), r1.1, r2.1], [-r1.1, (v : Int)], [-r2.1, (v : Int)]],
      v)
  | .imp f g, tv =>
    let r1 := encFml f tv
    let r2 := encFml g r1.2.2
    let v := r2.2.2 + 1
    ((v : Int),
      r1.2.1 ++ r2.2.1 ++ [[-(v : Int), -r1.1, r2.1], [r1.1, (v : Int)], [-r2.1, (v : Int)]],
      v)
  | .iff f g, tv =>
    let r1 := encFml f tv
    let r2 := encFml g r1.2.2
    let v := r2.2.2 + 1
    ((v : Int),
      r1.2.1 ++ r2.2.1 ++ [[-(v : Int), -r1.1, r2.1], [-(v : Int), -r2.1, r1.1],
        [r1.1, r2.1, (v : Int)], [-r1.1, -r2.1, (v : Int)]],
      v)

/-- The premise half of `check_entailment`/`check_contradiction` at AST
level: clauses for each premise followed by its unit clause. -/
def encPremises : List Fml → Nat → List (List Int) × Nat
  | [], tv => ([], tv)
  | f :: fs, tv =>
    let r := encFml f tv
    let rest := encPremises fs r.2.2
    (r.2.1 ++ [[r.1]] ++ rest.1, rest.2)

/-- The atom assignment read off a CNF assignment: atom `i` lives at
variable `i + 1`. -/
def restrict (σ : Nat → Bool) : Fin 4 → Bool := fun i => σ (i.val + 1)

theorem restrict_congr {σ τ : Nat → Bool} (h : ∀ k, k ≤ 4 → τ k = σ k) :
    restrict τ = restrict σ := by
  funext i
  exact h (i.val + 1) (by omega)

/-! ### Correctness of the Tseitin clauses

For each connective the emitted clauses pin the fresh variable to the
boolean value of the connective applied to the operand literals. -/

theorem andDefs_iff (σ : Nat → Bool) (a b : Int) (v : Nat)
    (hv : 1 ≤ v) (ha : a ≠ 0) (hb : b ≠ 0) :
    evalCnf σ [[-(v : Int), a], [-(v : Int), b], [-a, -b, (v : Int)]] = true ↔
      σ v = (evalLit σ a && evalLit σ b) := by
  simp only [evalCnf, evalClause, List.all_cons, List.all_nil, List.any_cons, List.any_nil,
    evalLit_neg_natCast σ hv, evalLit_natCast σ hv, evalLit_neg ha, evalLit_neg hb,
    Bool.or_false, Bool.and_true]
  generalize evalLit σ a = x
  generalize evalLit σ b = y
  generalize σ v = z
  revert x y z
  decide

theorem orDefs_iff (σ : Nat → Bool) (a b : Int) (v : Nat)
    (hv : 1 ≤ v) (ha : a ≠ 0) (hb : b ≠ 0) :
    evalCnf σ [[-(v : Int), a, b], [-a, (v : Int)], [-b, (v : Int)]] = true ↔
      σ v = (evalLit σ a || evalLit σ b) := by
  simp only [evalCnf, evalClause, List.all_cons, List.all_nil, List.any_cons, List.any_nil,
    evalLit_neg_natCast σ hv, evalLit_natCast σ hv, evalLit_neg ha, evalLit_neg hb,
    Bool.or_false, Bool.and_true]
  generalize evalLit σ a = x
  generalize evalLit σ b = y
  generalize σ v = z
  revert x y z
  decide

theorem impDefs_iff (σ : Nat → Bool) (a b : Int) (v : Nat)
    (hv : 1 ≤ v) (ha : a ≠ 0) (hb : b ≠ 0) :
    evalCnf σ [[-(v : Int), -a, b], [a, (v : Int)], [-b, (v : Int)]] = true ↔
      σ v = (!(evalLit σ a) || evalLit σ b) := by
  simp only [evalCnf, evalClause, List.all_cons, List.all_nil, List.any_cons, List.any_nil,
    evalLit_neg_natCast σ hv, evalLit_natCast σ hv, evalLit_neg ha, evalLit_neg hb,
    Bool.or_false, Bool.and_true]
  generalize evalLit σ a = x
  generalize evalLit σ b = y
  generalize σ v = z
  revert x y z
  decide

theorem iffDefs_iff (σ : Nat → Bool) (a b : Int) (v : Nat)
    (hv : 1 ≤ v) (ha : a ≠ 0) (hb : b ≠ 0) :
    evalCnf σ [[-(v : Int), -a, b], [-(v : Int), -b, a],
      [a, b, (v : Int)], [-a, -b, (v : Int)]] = true ↔
      σ v = (evalLit σ a == evalLit σ b) := by
  simp only [evalCnf, evalClause, List.all_cons, List.all_nil, List.any_cons, List.any_nil,
    evalLit_neg_natCast σ hv, evalLit_natCast σ hv, evalLit_neg ha, evalLit_neg hb,
    Bool.or_false, Bool.and_true]
  generalize evalLit σ a = x
  generalize evalLit σ b = y
  generalize σ v = z
  revert x y z
  decide

/-- The full specification of one `encFml` session starting at counter
`tv`: the counter is monotone, the returned literal and all clause
literals are nonzero with variables among the atoms or the freshly
allocated range, satisfying assignments force the literal to the truth
value of the formula, and every assignment extends (touching only the
fresh range) to one satisfying the clauses with the literal at the
formula's truth value. -/
structure EncOk (f : Fml) (tv : Nat) : Prop where
  mono : tv ≤ (encFml f tv).2.2
  lit_pos : 1 ≤ (encFml f tv).1.natAbs
  lit_le : (encFml f tv).1.natAbs ≤ (encFml f tv).2.2
  lit_range : (encFml f tv).1.natAbs ≤ 4 ∨ tv < (encFml f tv).1.natAbs
  vars : ∀ c ∈ (encFml f tv).2.1, ∀ l ∈ c,
    1 ≤ l.natAbs ∧ l.natAbs ≤ (encFml f tv).2.2 ∧ (l.natAbs ≤ 4 ∨ tv < l.natAbs)
  sound : ∀ σ, evalCnf σ (encFml f tv).2.1 = true →
    evalLit σ (encFml f tv).1 = evalF (restrict σ) f
  ext : ∀ σ, ∃ τ, (∀ k, k ≤ tv → τ k = σ k) ∧ (∀ k, (encFml f tv).2.2 < k → τ k = σ k) ∧
    evalCnf τ (encFml f tv).2.1 = true ∧ evalLit τ (encFml f tv).1 = evalF (restrict σ) f


/-- Common argument for the four binary connectives of `encFml`. -/
theorem encOk_binary (f g C : Fml) (tv : Nat) (htv : 4 ≤ tv)
    (hf : EncOk f tv) (hg : EncOk g (encFml f tv).2.2)
    (bop : Bool → Bool → Bool)
    (mkDefs : Int → Int → Nat → List (List Int))
    (hC : encFml C tv =
      ((((encFml g (encFml f tv).2.2).2.2 + 1 : Nat) : Int),
        (encFml f tv).2.1 ++ (encFml g (encFml f tv).2.2).2.1 ++
          mkDefs (encFml f tv).1 (encFml g (encFml f tv).2.2).1
            ((encFml g (encFml f tv).2.2).2.2 + 1),
        (encFml g (encFml f tv).2.2).2.2 + 1))
    (hCsem : ∀ α, evalF α C = bop (evalF α f) (evalF α g))
    (hvars : ∀ a b v, ∀ c ∈ mkDefs a b v, ∀ l ∈ c,
      l.natAbs = a.natAbs ∨ l.natAbs = b.natAbs ∨ l.natAbs = v)
    (hdefs : ∀ (σ : Nat → Bool) a b (v : Nat), 1 ≤ v → a ≠ 0 → b ≠ 0 →
      (evalCnf σ (mkDefs a b v) = true ↔ σ v = bop (evalLit σ a) (evalLit σ b))) :
    EncOk C tv := by
  rcases h1 : encFml f tv with ⟨a, cs1, t1⟩
  rw [h1] at hg
  have f_mono : tv ≤ t1 := by have := hf.mono; rw [h1] at this; exact this
  have f_pos : 1 ≤ a.natAbs := by have := hf.lit_pos; rw [h1] at this; exact this
  have f_le : a.natAbs ≤ t1 := by have := hf.lit_le; rw [h1] at this; exact this
  have f_range : a.natAbs ≤ 4 ∨ tv < a.natAbs := by
    have := hf.lit_range; rw [h1] at this; exact this
  have f_vars : ∀ c ∈ cs1, ∀ l ∈ c,
      1 ≤ l.natAbs ∧ l.natAbs ≤ t1 ∧ (l.natAbs ≤ 4 ∨ tv < l.natAbs) := by
    have := hf.vars; rw [h1] at this; exact this
  have f_sound : ∀ σ, evalCnf σ cs1 = true → evalLit σ a = evalF (restrict σ) f := by
    have := hf.sound; rw [h1] at this; exact this
  have f_ext : ∀ σ, ∃ τ, (∀ k, k ≤ tv → τ k = σ k) ∧ (∀ k, t1 < k → τ k = σ k) ∧
      evalCnf τ cs1 = true ∧ evalLit τ a = evalF (restrict σ) f := by
    have := hf.ext; rw [h1] at this; exact this
  rcases h2 : encFml g t1 with ⟨b, cs2, t2⟩
  have g_mono : t1 ≤ t2 := by have := hg.mono; rw [h2] at this; exact this
  have g_pos : 1 ≤ b.natAbs := by have := hg.lit_pos; rw [h2] at this; exact this
  have g_le : b.natAbs ≤ t2 := by have := hg.lit_le; rw [h2] at this; exact this
  have g_range : b.natAbs ≤ 4 ∨ t1 < b.natAbs := by
    have := hg.lit_range; rw [h2] at this; exact this
  have g_vars : ∀ c ∈ cs2, ∀ l ∈ c,
      1 ≤ l.natAbs ∧ l.natAbs ≤ t2 ∧ (l.natAbs ≤ 4 ∨ t1 < l.natAbs) := by
    have := hg.vars; rw [h2] at this; exact this
  have g_sound : ∀ σ, evalCnf σ cs2 = true → evalLit σ b = evalF (restrict σ) g := by
    have := hg.sound; rw [h2] at this; exact this
  have g_ext : ∀ σ, ∃ τ, (∀ k, k ≤ t1 → τ k = σ k) ∧ (∀ k, t2 < k → τ k = σ k) ∧
      evalCnf τ cs2 = true ∧ evalLit τ b = evalF (restrict σ) g := by
    have := hg.ext; rw [h2] at this; exact this
  rw [h1, h2] at hC
  have hCl : (encFml C tv).1 = ((t2 + 1 : Nat) : Int) := by rw [hC]
  have hCc : (encFml C tv).2.1 = cs1 ++ cs2 ++ mkDefs a b (t2 + 1) := by rw [hC]
  have hCt : (encFml C tv).2.2 = t2 + 1 := by rw [hC]
  have ha0 : a ≠ 0 := by
    intro h
    rw [h] at f_pos
    simp at f_pos
  have hb0 : b ≠ 0 := by
    intro h
    rw [h] at g_pos
    simp at g_pos
  have hv1 : 1 ≤ t2 + 1 := by omega
  constructor
  · rw [hCt]; omega
  · rw [hCl]; omega
  · rw [hCl, hCt]; omega
  · rw [hCl]
    right
    omega
  · rw [hCc, hCt]
    intro c hc l hl
    rcases List.mem_append.mp hc with hc' | hc'
    · rcases List.mem_append.mp hc' with hc'' | hc''
      · obtain ⟨p1, p2, p3⟩ := f_vars c hc'' l hl
        exact ⟨p1, by omega, p3⟩
      · obtain ⟨p1, p2, p3⟩ := g_vars c hc'' l hl
        refine ⟨p1, by omega, ?_⟩
        rcases p3 with p3 | p3
        · exact Or.inl p3
        · exact Or.inr (by omega)
    · rcases hvars a b (t2 + 1) c hc' l hl with h | h | h
      · rw [h]
        refine ⟨f_pos, by omega, f_range⟩
      · rw [h]
        refine ⟨g_pos, by omega, ?_⟩
        rcases g_range with p | p
        · exact Or.inl p
        · exact Or.inr (by omega)
      · rw [h]
        exact ⟨by omega, by omega, Or.inr (by omega)⟩
  · rw [hCc, hCl]
    intro σ hσ
    rw [evalCnf_append, evalCnf_append, Bool.and_eq_true, Bool.and_eq_true] at hσ
    obtain ⟨⟨hp1, hp2⟩, hp3⟩ := hσ
    have hx := f_sound σ hp1
    have hy := g_sound σ hp2
    have hz := (hdefs σ a b (t2 + 1) hv1 ha0 hb0).mp hp3
    rw [evalLit_natCast σ hv1, hz, hx, hy, hCsem]
  · rw [hCc, hCl, hCt]
    intro σ
    obtain ⟨τ1, hτ1a, hτ1b, hτ1c, hτ1d⟩ := f_ext σ
    obtain ⟨τ2, hτ2a, hτ2b, hτ2c, hτ2d⟩ := g_ext τ1
    have hres : restrict τ1 = restrict σ := restrict_congr (fun k hk => hτ1a k (by omega))
    rw [hres] at hτ2d
    have hupd : ∀ k, k ≤ t2 →
        Function.update τ2 (t2 + 1) (bop (evalLit τ2 a) (evalLit τ2 b)) k = τ2 k := by
      intro k hk
      exact Function.update_noteq (by omega) _ _
    refine ⟨Function.update τ2 (t2 + 1) (bop (evalLit τ2 a) (evalLit τ2 b)), ?_, ?_, ?_, ?_⟩
    · intro k hk
      rw [hupd k (by omega), hτ2a k (by omega), hτ1a k hk]
    · intro k hk
      rw [Function.update_noteq (by omega), hτ2b k (by omega), hτ1b k (by omega)]
    · rw [evalCnf_append, evalCnf_append, Bool.and_eq_true, Bool.and_eq_true]
      refine ⟨⟨?_, ?_⟩, ?_⟩
      · rw [evalCnf_congr (n := t1) (fun c hc l hl => (f_vars c hc l hl).2.1)
          (fun k hk => by rw [hupd k (by omega), hτ2a k hk])]
        exact hτ1c
      · rw [evalCnf_congr (n := t2) (fun c hc l hl => (g_vars c hc l hl).2.1) hupd]
        exact hτ2c
      · rw [hdefs _ a b (t2 + 1) hv1 ha0 hb0, Function.update_same]
        congr 1
        · exact (evalLit_congr (hupd _ (by omega))).symm
        · exact (evalLit_congr (hupd _ (by omega))).symm
    · rw [evalLit_natCast _ hv1, Function.update_same, hCsem,
        show evalLit τ2 a = evalLit τ1 a from evalLit_congr (hτ2a _ f_le), hτ1d, hτ2d]

theorem andDefs_vars (a b : Int) (v : Nat) :
    ∀ c ∈ [[-(v : Int), a], [-(v : Int), b], [-a, -b, (v : Int)]], ∀ l ∈ c,
      l.natAbs = a.natAbs ∨ l.natAbs = b.natAbs ∨ l.natAbs = v := by
  intro c hc l hl
  fin_cases hc <;> fin_cases hl <;> simp [Int.natAbs_neg]

theorem orDefs_vars (a b : Int) (v : Nat) :
    ∀ c ∈ [[-(v : Int), a, b], [-a, (v : Int)], [-b, (v : Int)]], ∀ l ∈ c,
      l.natAbs = a.natAbs ∨ l.natAbs = b.natAbs ∨ l.natAbs = v := by
  intro c hc l hl
  fin_cases hc <;> fin_cases hl <;> simp [Int.natAbs_neg]

theorem impDefs_vars (a b : Int) (v : Nat) :
    ∀ c ∈ [[-(v : Int), -a, b], [a, (v : Int)], [-b, (v : Int)]], ∀ l ∈ c,
      l.natAbs = a.natAbs ∨ l.natAbs = b.natAbs ∨ l.natAbs = v := by
  intro c hc l hl
  fin_cases hc <;> fin_cases hl <;> simp [Int.natAbs_neg]

theorem iffDefs_vars (a b : Int) (v : Nat) :
    ∀ c ∈ [[-(v : Int), -a, b], [-(v : Int), -b, a],
      [a, b, (v : Int)], [-a, -b, (v : Int)]], ∀ l ∈ c,
      l.natAbs = a.natAbs ∨ l.natAbs = b.natAbs ∨ l.natAbs = v := by
  intro c hc l hl
  fin_cases hc <;> fin_cases hl <;> simp [Int.natAbs_neg]

/-- Every encoding session satisfies the full specification. -/
theorem encFml_spec : ∀ (f : Fml) (tv : Nat), 4 ≤ tv → EncOk f tv := by
  intro f
  induction f with
  | atom i =>
    intro tv htv
    have hA : encFml (.atom i) tv = (((i.val + 1 : Nat) : Int), [], tv) := rfl
    have hiv := i.isLt
    constructor
    · rw [hA]
    · rw [hA]
      simp only [Int.natAbs_ofNat]
      omega
    · rw [hA]
      simp only [Int.natAbs_ofNat]
      omega
    · rw [hA]
      left
      simp only [Int.natAbs_ofNat]
      omega
    · rw [hA]
      intro c hc
      exact absurd hc (List.not_mem_nil c)
    · rw [hA]
      intro σ _
      rw [evalLit_natCast _ (by omega)]
      rfl
    · rw [hA]
      intro σ
      refine ⟨σ, fun _ _ => rfl, fun _ _ => rfl, rfl, ?_⟩
      rw [evalLit_natCast _ (by omega)]
      rfl
  | not f ih =>
    intro tv htv
    have hf := ih tv htv
    rcases h1 : encFml f tv with ⟨a, cs1, t1⟩
    have hN : encFml (.not f) tv = (-a, cs1, t1) := by
      simp only [encFml, h1]
    have f_pos : 1 ≤ a.natAbs := by have := hf.lit_pos; rw [h1] at this; exact this
    have ha0 : a ≠ 0 := by
      intro h
      rw [h] at f_pos
      simp at f_pos
    constructor
    · rw [hN]
      have := hf.mono
      rw [h1] at this
      exact this
    · rw [hN, Int.natAbs_neg]
      exact f_pos
    · rw [hN, Int.natAbs_neg]
      have := hf.lit_le
      rw [h1] at this
      exact this
    · rw [hN, Int.natAbs_neg]
      have := hf.lit_range
      rw [h1] at this
      exact this
    · rw [hN]
      have := hf.vars
      rw [h1] at this
      exact this
    · rw [hN]
      intro σ hσ
      have := hf.sound σ
      rw [h1] at this
      rw [evalLit_neg ha0, this hσ]
      rfl
    · rw [hN]
      intro σ
      have := hf.ext σ
      rw [h1] at this
      obtain ⟨τ, hτ1, hτ2, hτ3, hτ4⟩ := this
      refine ⟨τ, hτ1, hτ2, hτ3, ?_⟩
      rw [evalLit_neg ha0, hτ4]
      rfl
  | and f g ihf ihg =>
    intro tv htv
    refine encOk_binary f g _ tv htv (ihf tv htv) (ihg _ (le_trans htv (ihf tv htv).mono))
      (· && ·)
      (fun a b v => [[-(v : Int), a], [-(v : Int), b], [-a, -b, (v : Int)]])
      rfl (fun α => rfl) andDefs_vars
      (fun σ a b v hv ha hb => andDefs_iff σ a b v hv ha hb)
  | or f g ihf ihg =>
    intro tv htv
    refine encOk_binary f g _ tv htv (ihf tv htv) (ihg _ (le_trans htv (ihf tv htv).mono))
      (· || ·)
      (fun a b v => [[-(v : Int), a, b], [-a, (v : Int)], [-b, (v : Int)]])
      rfl (fun α => rfl) orDefs_vars
      (fun σ a b v hv ha hb => orDefs_iff σ a b v hv ha hb)
  | imp f g ihf ihg =>
    intro tv htv
    refine encOk_binary f g _ tv htv (ihf tv htv) (ihg _ (le_trans htv (ihf tv htv).mono))
      (fun x y => !x || y)
      (fun a b v => [[-(v : Int), -a, b], [a, (v : Int)], [-b, (v : Int)]])
      rfl (fun α => rfl) impDefs_vars
      (fun σ a b v hv ha hb => impDefs_iff σ a b v hv ha hb)
  | iff f g ihf ihg =>
    intro tv htv
    refine encOk_binary f g _ tv htv (ihf tv htv) (ihg _ (le_trans htv (ihf tv htv).mono))
      (· == ·)
      (fun a b v => [[-(v : Int), -a, b], [-(v : Int), -b, a],
        [a, b, (v : Int)], [-a, -b, (v : Int)]])
      rfl (fun α => rfl) iffDefs_vars
      (fun σ a b v hv ha hb => iffDefs_iff σ a b v hv ha hb)

theorem evalClause_singleton (σ : Nat → Bool) (l : Int) :
    evalClause σ [l] = evalLit σ l := by
  simp [evalClause]

/-- Specification of the premise-encoding fold. -/
structure PremOk (ps : List Fml) (tv : Nat) : Prop where
  mono : tv ≤ (encPremises ps tv).2
  vars : ∀ c ∈ (encPremises ps tv).1, ∀ l ∈ c,
    1 ≤ l.natAbs ∧ l.natAbs ≤ (encPremises ps tv).2 ∧ (l.natAbs ≤ 4 ∨ tv < l.natAbs)
  sound : ∀ σ, evalCnf σ (encPremises ps tv).1 = true →
    ∀ f ∈ ps, evalF (restrict σ) f = true
  ext : ∀ σ, (∀ f ∈ ps, evalF (restrict σ) f = true) →
    ∃ τ, (∀ k, k ≤ tv → τ k = σ k) ∧ (∀ k, (encPremises ps tv).2 < k → τ k = σ k) ∧
      evalCnf τ (encPremises ps tv).1 = true

theorem encPremises_spec : ∀ (ps : List Fml) (tv : Nat), 4 ≤ tv → PremOk ps tv := by
  intro ps
  induction ps with
  | nil =>
    intro tv htv
    constructor
    · exact le_refl tv
    · intro c hc
      exact absurd hc (List.not_mem_nil c)
    · intro σ _ f hf
      exact absurd hf (List.not_mem_nil f)
    · intro σ _
      exact ⟨σ, fun _ _ => rfl, fun _ _ => rfl, rfl⟩
  | cons f fs ih =>
    intro tv htv
    have hf := encFml_spec f tv htv
    rcases h1 : encFml f tv with ⟨a, cs1, t1⟩
    have f_mono : tv ≤ t1 := by have := hf.mono; rw [h1] at this; exact this
    have f_pos : 1 ≤ a.natAbs := by have := hf.lit_pos; rw [h1] at this; exact this
    have f_le : a.natAbs ≤ t1 := by have := hf.lit_le; rw [h1] at this; exact this
    have f_range : a.natAbs ≤ 4 ∨ tv < a.natAbs := by
      have := hf.lit_range; rw [h1] at this; exact this
    have f_vars : ∀ c ∈ cs1, ∀ l ∈ c,
        1 ≤ l.natAbs ∧ l.natAbs ≤ t1 ∧ (l.natAbs ≤ 4 ∨ tv < l.natAbs) := by
      have := hf.vars; rw [h1] at this; exact this
    have f_sound : ∀ σ, evalCnf σ cs1 = true → evalLit σ a = evalF (restrict σ) f := by
      have := hf.sound; rw [h1] at this; exact this
    have f_ext : ∀ σ, ∃ τ, (∀ k, k ≤ tv → τ k = σ k) ∧ (∀ k, t1 < k → τ k = σ k) ∧
        evalCnf τ cs1 = true ∧ evalLit τ a = evalF (restrict σ) f := by
      have := hf.ext; rw [h1] at this; exact this
    have hp := ih t1 (by omega)
    rcases h2 : encPremises fs t1 with ⟨rest, t2⟩
    have p_mono : t1 ≤ t2 := by have := hp.mono; rw [h2] at this; exact this
    have p_vars : ∀ c ∈ rest, ∀ l ∈ c,
        1 ≤ l.natAbs ∧ l.natAbs ≤ t2 ∧ (l.natAbs ≤ 4 ∨ t1 < l.natAbs) := by
      have := hp.vars; rw [h2] at this; exact this
    have p_sound : ∀ σ, evalCnf σ rest = true → ∀ f' ∈ fs, evalF (restrict σ) f' = true := by
      have := hp.sound; rw [h2] at this; exact this
    have p_ext : ∀ σ, (∀ f' ∈ fs, evalF (restrict σ) f' = true) →
        ∃ τ, (∀ k, k ≤ t1 → τ k = σ k) ∧ (∀ k, t2 < k → τ k = σ k) ∧
          evalCnf τ rest = true := by
      have := hp.ext; rw [h2] at this; exact this
    have hE : encPremises (f :: fs) tv = (cs1 ++ [[a]] ++ rest, t2) := by
      simp only [encPremises, h1, h2]
    constructor
    · rw [hE]
      omega
    · rw [hE]
      intro c hc l hl
      rcases List.mem_append.mp hc with hc' | hc'
      · rcases List.mem_append.mp hc' with hc'' | hc''
        · obtain ⟨q1, q2, q3⟩ := f_vars c hc'' l hl
          exact ⟨q1, by omega, q3⟩
        · rcases List.mem_singleton.mp hc'' with rfl
          rcases List.mem_singleton.mp hl with rfl
          exact ⟨f_pos, by omega, f_range⟩
      · obtain ⟨q1, q2, q3⟩ := p_vars c hc' l hl
        refine ⟨q1, by omega, ?_⟩
        rcases q3 with q3 | q3
        · exact Or.inl q3
        · exact Or.inr (by omega)
    · rw [hE]
      intro σ hσ f' hf'
      rw [evalCnf_append, evalCnf_append, Bool.and_eq_true, Bool.and_eq_true] at hσ
      obtain ⟨⟨hs1, hs2⟩, hs3⟩ := hσ
      rcases List.mem_cons.mp hf' with rfl | hf'
      · rw [← f_sound σ hs1]
        simpa [evalCnf, evalClause_singleton] using hs2
      · exact p_sound σ hs3 f' hf'
    · rw [hE]
      intro σ hall
      obtain ⟨τ1, hτ1a, hτ1b, hτ1c, hτ1d⟩ := f_ext σ
      have hres1 : restrict τ1 = restrict σ := restrict_congr (fun k hk => hτ1a k (by omega))
      obtain ⟨τ2, hτ2a, hτ2b, hτ2c⟩ := p_ext τ1 (by
        rw [hres1]
        intro f' hf'
        exact hall f' (List.mem_cons_of_mem f hf'))
      refine ⟨τ2, ?_, ?_, ?_⟩
      · intro k hk
        rw [hτ2a k (by omega), hτ1a k hk]
      · intro k hk
        rw [hτ2b k (by omega), hτ1b k (by omega)]
      · rw [evalCnf_append, evalCnf_append, Bool.and_eq_true, Bool.and_eq_true]
        refine ⟨⟨?_, ?_⟩, hτ2c⟩
        · rw [evalCnf_congr (n := t1) (fun c hc l hl => (f_vars c hc l hl).2.1) hτ2a]
          exact hτ1c
        · have ha2 : evalLit τ2 a = evalLit τ1 a := evalLit_congr (hτ2a _ f_le)
          simp only [evalCnf, List.all_cons, List.all_nil, Bool.and_true,
            evalClause_singleton, ha2, hτ1d]
          exact hall f (List.mem_cons_self f fs)

/-! ## Parser lemmas -/

theorem lstripWS_eq_self {l : List Char}
    (h : ∀ c, l.head? = some c → ¬ c.isWhitespace) : lstripWS l = l := by
  cases l with
  | nil => rfl
  | cons c t =>
    unfold lstripWS
    rw [List.dropWhile_cons_of_neg]
    simpa using h c rfl

theorem rstripWS_eq_self {l : List Char}
    (h : ∀ c, l.getLast? = some c → ¬ c.isWhitespace) : rstripWS l = l := by
  cases hl : l.reverse with
  | nil =>
    unfold rstripWS lstripWS
    rw [hl]
    simpa using congrArg List.reverse hl
  | cons c t =>
    unfold rstripWS lstripWS
    rw [hl, List.dropWhile_cons_of_neg, ← hl, List.reverse_reverse]
    have hc : l.getLast? = some c := by
      rw [← List.head?_reverse, hl]
      rfl
    simpa using h c hc

theorem rstripWS_concat_ws {l : List Char} {a : Char} (ha : a.isWhitespace) :
    rstripWS (l ++ [a]) = rstripWS l := by
  unfold rstripWS lstripWS
  rw [List.reverse_append, List.reverse_singleton, List.singleton_append,
    List.dropWhile_cons_of_pos (by simpa using ha)]

theorem lstripWS_cons_ws {t : List Char} {c : Char} (hc : c.isWhitespace) :
    lstripWS (c :: t) = lstripWS t := by
  unfold lstripWS
  rw [List.dropWhile_cons_of_pos (by simpa using hc)]

theorem pyStrip_eq_self {l : List Char}
    (h1 : ∀ c, l.head? = some c → ¬ c.isWhitespace)
    (h2 : ∀ c, l.getLast? = some c → ¬ c.isWhitespace) : pyStrip l = l := by
  unfold pyStrip
  rw [lstripWS_eq_self h1, rstripWS_eq_self h2]

theorem renderL_head (f : Fml) : ∃ c t, renderL f = c :: t ∧
    (c = '(' ∨ c = 'P' ∨ c = 'Q' ∨ c = 'R' ∨ c = 'S') := by
  cases f with
  | atom i =>
    fin_cases i
    · exact ⟨'P', [], rfl, by simp⟩
    · exact ⟨'Q', [], rfl, by simp⟩
    · exact ⟨'R', [], rfl, by simp⟩
    · exact ⟨'S', [], rfl, by simp⟩
  | not f => exact ⟨'(', _, rfl, by simp⟩
  | and f g => exact ⟨'(', _, rfl, by simp⟩
  | or f g => exact ⟨'(', _, rfl, by simp⟩
  | imp f g => exact ⟨'(', _, rfl, by simp⟩
  | iff f g => exact ⟨'(', _, rfl, by simp⟩

theorem renderL_last (f : Fml) : ∃ l a, renderL f = l ++ [a] ∧
    (a = ')' ∨ a = 'P' ∨ a = 'Q' ∨ a = 'R' ∨ a = 'S') := by
  cases f with
  | atom i =>
    fin_cases i
    · exact ⟨[], 'P', rfl, by simp⟩
    · exact ⟨[], 'Q', rfl, by simp⟩
    · exact ⟨[], 'R', rfl, by simp⟩
    · exact ⟨[], 'S', rfl, by simp⟩
  | not f =>
    exact ⟨'(' :: '~' :: renderL f, ')', by simp [renderL], by simp⟩
  | and f g =>
    exact ⟨'(' :: (renderL f ++ ' ' :: '&' :: ' ' :: renderL g), ')', by simp [renderL], by simp⟩
  | or f g =>
    exact ⟨'(' :: (renderL f ++ ' ' :: '|' :: ' ' :: renderL g), ')', by simp [renderL], by simp⟩
  | imp f g =>
    exact ⟨'(' :: (renderL f ++ ' ' :: '-' :: '>' :: ' ' :: renderL g), ')',
      by simp [renderL], by simp⟩
  | iff f g =>
    exact ⟨'(' :: (renderL f ++ ' ' :: '<' :: '-' :: '>' :: ' ' :: renderL g), ')',
      by simp [renderL], by simp⟩

theorem renderL_ne_nil (f : Fml) : renderL f ≠ [] := by
  obtain ⟨c, t, hct, -⟩ := renderL_head f
  rw [hct]
  exact List.cons_ne_nil c t

theorem renderL_head_not_ws (f : Fml) :
    ∀ c, (renderL f).head? = some c → ¬ c.isWhitespace := by
  obtain ⟨c, t, hct, hc⟩ := renderL_head f
  intro d hd
  rw [hct] at hd
  simp only [List.head?_cons, Option.some.injEq] at hd
  subst hd
  rcases hc with h | h | h | h | h <;> subst h <;> decide

theorem renderL_last_not_ws (f : Fml) :
    ∀ c, (renderL f).getLast? = some c → ¬ c.isWhitespace := by
  obtain ⟨l, a, hla, ha⟩ := renderL_last f
  intro d hd
  rw [hla, List.getLast?_concat, Option.some.injEq] at hd
  subst hd
  rcases ha with h | h | h | h | h <;> subst h <;> decide

theorem pyStrip_renderL (f : Fml) : pyStrip (renderL f) = renderL f :=
  pyStrip_eq_self (renderL_head_not_ws f) (renderL_last_not_ws f)

theorem pyStrip_renderL_space (f : Fml) : pyStrip (renderL f ++ [' ']) = renderL f := by
  unfold pyStrip
  obtain ⟨c, t, hct, -⟩ := renderL_head f
  have h1 : lstripWS (renderL f ++ [' ']) = renderL f ++ [' '] := by
    apply lstripWS_eq_self
    intro d hd
    rw [hct, List.cons_append, List.head?_cons, Option.some.injEq] at hd
    subst hd
    exact renderL_head_not_ws f _ (by rw [hct]; rfl)
  rw [h1, rstripWS_concat_ws (by decide), rstripWS_eq_self (renderL_last_not_ws f)]

theorem pyStrip_space_renderL (f : Fml) : pyStrip (' ' :: renderL f) = renderL f := by
  unfold pyStrip
  rw [lstripWS_cons_ws (by decide), lstripWS_eq_self (renderL_head_not_ws f),
    rstripWS_eq_self (renderL_last_not_ws f)]

theorem pyStrip_renderL_lt (f : Fml) :
    pyStrip (renderL f ++ [' ', '<']) = renderL f ++ [' ', '<'] := by
  apply pyStrip_eq_self
  · obtain ⟨c, t, hct, hc⟩ := renderL_head f
    intro d hd
    rw [hct, List.cons_append, List.head?_cons] at hd
    rcases Option.some.injEq _ _ ▸ hd with rfl
    rcases hc with h | h | h | h | h <;> subst h <;> simp_all
  · intro d hd
    rw [show renderL f ++ [' ', '<'] = (renderL f ++ [' ']) ++ ['<'] by simp,
      List.getLast?_concat, Option.some.injEq] at hd
    subst hd
    decide

theorem findSplit_open (rest : List Char) (bal : Int) (i : Nat) :
    findSplit ('(' :: rest) bal i = findSplit rest (bal + 1) (i + 1) := by
  simp [findSplit]

theorem findSplit_close (rest : List Char) (bal : Int) (i : Nat) :
    findSplit (')' :: rest) bal i = findSplit rest (bal - 1) (i + 1) := by
  simp [findSplit]

theorem findSplit_skip_char {c : Char} (rest : List Char) (bal : Int) (i : Nat)
    (hc1 : ¬ c = '(') (hc2 : ¬ c = ')')
    (h : ¬((c = ' ' ∨ c = '&' ∨ c = '|' ∨ c = '-') ∧ bal = 0)) :
    findSplit (c :: rest) bal i = findSplit rest bal (i + 1) := by
  unfold findSplit
  rw [if_neg hc1, if_neg hc2, if_neg h]
  cases rest <;> rfl

theorem findSplit_set_continue {c : Char} (rest : List Char) (bal : Int) (i : Nat)
    (hc1 : ¬ c = '(') (hc2 : ¬ c = ')')
    (hset : (c = ' ' ∨ c = '&' ∨ c = '|' ∨ c = '-') ∧ bal = 0)
    (hp1 : List.isPrefixOf ['<', '-', '>'] (c :: rest) = false)
    (hp2 : List.isPrefixOf ['-', '>'] (c :: rest) = false)
    (hc3 : ¬(c = '&' ∨ c = '|')) :
    findSplit (c :: rest) bal i = findSplit rest bal (i + 1) := by
  unfold findSplit
  rw [if_neg hc1, if_neg hc2, if_pos hset, if_neg (by simp [hp1]), if_neg (by simp [hp2]),
    if_neg hc3]
  cases rest <;> rfl

theorem findSplit_hit3 {c : Char} (rest : List Char) (bal : Int) (i : Nat)
    (hc1 : ¬ c = '(') (hc2 : ¬ c = ')')
    (hset : (c = ' ' ∨ c = '&' ∨ c = '|' ∨ c = '-') ∧ bal = 0)
    (hp1 : List.isPrefixOf ['<', '-', '>'] (c :: rest) = true) :
    findSplit (c :: rest) bal i = some i := by
  unfold findSplit
  rw [if_neg hc1, if_neg hc2, if_pos hset, if_pos hp1]

theorem findSplit_hit2 {c : Char} (rest : List Char) (bal : Int) (i : Nat)
    (hc1 : ¬ c = '(') (hc2 : ¬ c = ')')
    (hset : (c = ' ' ∨ c = '&' ∨ c = '|' ∨ c = '-') ∧ bal = 0)
    (hp1 : List.isPrefixOf ['<', '-', '>'] (c :: rest) = false)
    (hp2 : List.isPrefixOf ['-', '>'] (c :: rest) = true) :
    findSplit (c :: rest) bal i = some i := by
  unfold findSplit
  rw [if_neg hc1, if_neg hc2, if_pos hset, if_neg (by simp [hp1]), if_pos hp2]

theorem findSplit_hit1 {c : Char} (rest : List Char) (bal : Int) (i : Nat)
    (hc1 : ¬ c = '(') (hc2 : ¬ c = ')')
    (hset : (c = ' ' ∨ c = '&' ∨ c = '|' ∨ c = '-') ∧ bal = 0)
    (hp1 : List.isPrefixOf ['<', '-', '>'] (c :: rest) = false)
    (hp2 : List.isPrefixOf ['-', '>'] (c :: rest) = false)
    (hc3 : c = '&' ∨ c = '|') :
    findSplit (c :: rest) bal i = some i := by
  unfold findSplit
  rw [if_neg hc1, if_neg hc2, if_pos hset, if_neg (by simp [hp1]), if_neg (by simp [hp2]),
    if_pos hc3]

/-- Scanning over a rendered formula at non-negative balance never hits
an operator: balanced parentheses keep every `' &|-'` character of the
formula at positive balance (or, at the top of an atom, outside the
scan set). -/
theorem findSplit_renderL (f : Fml) : ∀ (rest : List Char) (bal : Int) (i : Nat), 0 ≤ bal →
    findSplit (renderL f ++ rest) bal i = findSplit rest bal (i + (renderL f).length) := by
  induction f with
  | atom j =>
    intro rest bal i h0
    have h1 : ¬ atomChar j = '(' := by fin_cases j <;> decide
    have h2 : ¬ atomChar j = ')' := by fin_cases j <;> decide
    have h3 : ¬(atomChar j = ' ' ∨ atomChar j = '&' ∨ atomChar j = '|' ∨ atomChar j = '-') := by
      fin_cases j <;> decide
    rw [show renderL (.atom j) ++ rest = atomChar j :: rest from rfl,
      findSplit_skip_char rest bal i h1 h2 (by rintro ⟨h, -⟩; exact h3 h)]
    rfl
  | not f ih =>
    intro rest bal i h0
    simp only [renderL, List.cons_append, List.append_assoc, List.singleton_append,
      List.nil_append]
    rw [findSplit_open,
      findSplit_skip_char _ _ _ (by decide) (by decide) (by rintro ⟨-, hbal⟩; omega),
      ih _ (bal + 1) _ (by omega), findSplit_close]
    congr 1
    · omega
    · simp only [renderL, List.length_cons, List.length_append, List.length_nil]
      omega
  | and f g ihf ihg =>
    intro rest bal i h0
    simp only [renderL, List.cons_append, List.append_assoc, List.singleton_append,
      List.nil_append]
    rw [findSplit_open, ihf _ (bal + 1) _ (by omega),
      findSplit_skip_char _ _ _ (by decide) (by decide) (by rintro ⟨-, hbal⟩; omega),
      findSplit_skip_char _ _ _ (by decide) (by decide) (by rintro ⟨-, hbal⟩; omega),
      findSplit_skip_char _ _ _ (by decide) (by decide) (by rintro ⟨-, hbal⟩; omega),
      ihg _ (bal + 1) _ (by omega), findSplit_close]
    congr 1
    · omega
    · simp only [renderL, List.length_cons, List.length_append, List.length_nil]
      omega
  | or f g ihf ihg =>
    intro rest bal i h0
    simp only [renderL, List.cons_append, List.append_assoc, List.singleton_append,
      List.nil_append]
    rw [findSplit_open, ihf _ (bal + 1) _ (by omega),
      findSplit_skip_char _ _ _ (by decide) (by decide) (by rintro ⟨-, hbal⟩; omega),
      findSplit_skip_char _ _ _ (by decide) (by decide) (by rintro ⟨-, hbal⟩; omega),
      findSplit_skip_char _ _ _ (by decide) (by decide) (by rintro ⟨-, hbal⟩; omega),
      ihg _ (bal + 1) _ (by omega), findSplit_close]
    congr 1
    · omega
    · simp only [renderL, List.length_cons, List.length_append, List.length_nil]
      omega
  | imp f g ihf ihg =>
    intro rest bal i h0
    simp only [renderL, List.cons_append, List.append_assoc, List.singleton_append,
      List.nil_append]
    rw [findSplit_open, ihf _ (bal + 1) _ (by omega),
      findSplit_skip_char _ _ _ (by decide) (by decide) (by rintro ⟨-, hbal⟩; omega),
      findSplit_skip_char _ _ _ (by decide) (by decide) (by rintro ⟨-, hbal⟩; omega),
      findSplit_skip_char _ _ _ (by decide) (by decide) (by rintro ⟨-, hbal⟩; omega),
      findSplit_skip_char _ _ _ (by decide) (by decide) (by rintro ⟨-, hbal⟩; omega),
      ihg _ (bal + 1) _ (by omega), findSplit_close]
    congr 1
    · omega
    · simp only [renderL, List.length_cons, List.length_append, List.length_nil]
      omega
  | iff f g ihf ihg =>
    intro rest bal i h0
    simp only [renderL, List.cons_append, List.append_assoc, List.singleton_append,
      List.nil_append]
    rw [findSplit_open, ihf _ (bal + 1) _ (by omega),
      findSplit_skip_char _ _ _ (by decide) (by decide) (by rintro ⟨-, hbal⟩; omega),
      findSplit_skip_char _ _ _ (by decide) (by decide) (by rintro ⟨-, hbal⟩; omega),
      findSplit_skip_char _ _ _ (by decide) (by decide) (by rintro ⟨-, hbal⟩; omega),
      findSplit_skip_char _ _ _ (by decide) (by decide) (by rintro ⟨-, hbal⟩; omega),
      findSplit_skip_char _ _ _ (by decide) (by decide) (by rintro ⟨-, hbal⟩; omega),
      ihg _ (bal + 1) _ (by omega), findSplit_close]
    congr 1
    · omega
    · simp only [renderL, List.length_cons, List.length_append, List.length_nil]
      omega

theorem isPrefixOf_cons_false {a b : Char} (as bs : List Char) (h : (a == b) = false) :
    List.isPrefixOf (a :: as) (b :: bs) = false := by
  simp [List.isPrefixOf, h]

theorem pySplit_head_one {c : Char} (hc : c.isWhitespace = false) (rest : List Char) :
    (pySplit (c :: ' ' :: rest)).head? = some [c] := by
  simp [pySplit, pySplitAux, hc]

theorem pySplit_head_two {c d : Char} (hc : c.isWhitespace = false)
    (hd : d.isWhitespace = false) (rest : List Char) :
    (pySplit (c :: d :: ' ' :: rest)).head? = some [c, d] := by
  simp [pySplit, pySplitAux, hc, hd]

theorem lookup_atom (i : Fin 4) :
    ATOM_MAP.lookup (String.mk [atomChar i]) = some ((i.val + 1 : Nat) : Int) := by
  fin_cases i <;> rfl

theorem lookup_none_of_len {s : List Char} (h : s.length ≠ 1) :
    ATOM_MAP.lookup (String.mk s) = none := by
  have hne : ∀ (t : String), t.data.length = 1 → (String.mk s == t) = false := by
    intro t ht
    rw [beq_eq_false_iff_ne]
    intro he
    apply h
    have hdata : s = t.data := congrArg String.data he
    rw [hdata, ht]
  simp [ATOM_MAP, List.lookup, hne "P" rfl, hne "Q" rfl, hne "R" rfl, hne "S" rfl]

theorem ftcAux_atom (i : Fin 4) (fuel : Nat) (w : List (List Int)) (tv : Nat) :
    ftcAux fuel (renderL (.atom i)) w tv = .ok (((i.val + 1 : Nat) : Int), w, tv) := by
  rw [ftcAux.eq_def]
  dsimp only
  rw [pyStrip_renderL, show renderL (.atom i) = [atomChar i] from rfl, lookup_atom]

theorem findSplit_top_and (f g : Fml) :
    findSplit (renderL f ++ ' ' :: '&' :: ' ' :: renderL g) 0 0 =
      some ((renderL f).length + 1) := by
  rw [findSplit_renderL f _ 0 0 le_rfl,
    findSplit_set_continue _ _ _ (by decide) (by decide) ⟨Or.inl rfl, rfl⟩
      (isPrefixOf_cons_false _ _ (by decide)) (isPrefixOf_cons_false _ _ (by decide))
      (by decide),
    findSplit_hit1 _ _ _ (by decide) (by decide) ⟨Or.inr (Or.inl rfl), rfl⟩
      (isPrefixOf_cons_false _ _ (by decide)) (isPrefixOf_cons_false _ _ (by decide))
      (Or.inl rfl)]
  congr 1
  omega

theorem findSplit_top_or (f g : Fml) :
    findSplit (renderL f ++ ' ' :: '|' :: ' ' :: renderL g) 0 0 =
      some ((renderL f).length + 1) := by
  rw [findSplit_renderL f _ 0 0 le_rfl,
    findSplit_set_continue _ _ _ (by decide) (by decide) ⟨Or.inl rfl, rfl⟩
      (isPrefixOf_cons_false _ _ (by decide)) (isPrefixOf_cons_false _ _ (by decide))
      (by decide),
    findSplit_hit1 _ _ _ (by decide) (by decide) ⟨Or.inr (Or.inr (Or.inl rfl)), rfl⟩
      (isPrefixOf_cons_false _ _ (by decide)) (isPrefixOf_cons_false _ _ (by decide))
      (Or.inr rfl)]
  congr 1
  omega

theorem findSplit_top_imp (f g : Fml) :
    findSplit (renderL f ++ ' ' :: '-' :: '>' :: ' ' :: renderL g) 0 0 =
      some ((renderL f).length + 1) := by
  rw [findSplit_renderL f _ 0 0 le_rfl,
    findSplit_set_continue _ _ _ (by decide) (by decide) ⟨Or.inl rfl, rfl⟩
      (isPrefixOf_cons_false _ _ (by decide)) (isPrefixOf_cons_false _ _ (by decide))
      (by decide),
    findSplit_hit2 _ _ _ (by decide) (by decide) ⟨Or.inr (Or.inr (Or.inr rfl)), rfl⟩
      (isPrefixOf_cons_false _ _ (by decide)) (by simp [List.isPrefixOf])]
  congr 1
  omega

theorem findSplit_top_iff (f g : Fml) :
    findSplit (renderL f ++ ' ' :: '<' :: '-' :: '>' :: ' ' :: renderL g) 0 0 =
      some ((renderL f).length + 2) := by
  rw [findSplit_renderL f _ 0 0 le_rfl,
    findSplit_set_continue _ _ _ (by decide) (by decide) ⟨Or.inl rfl, rfl⟩
      (isPrefixOf_cons_false _ _ (by decide)) (isPrefixOf_cons_false _ _ (by decide))
      (by decide),
    findSplit_skip_char _ _ _ (by decide) (by decide)
      (by rintro ⟨h, -⟩; rcases h with h | h | h | h <;> exact absurd h (by decide)),
    findSplit_hit2 _ _ _ (by decide) (by decide) ⟨Or.inr (Or.inr (Or.inr rfl)), rfl⟩
      (isPrefixOf_cons_false _ _ (by decide)) (by simp [List.isPrefixOf])]
  congr 1
  omega

theorem pyIntDrop_ofNat (cs : List Char) (n : Nat) :
    pyIntDrop cs (n : Int) = cs.drop n := by
  simp [pyIntDrop]

theorem pyIntTake_ofNat (cs : List Char) (n : Nat) :
    pyIntTake cs (n : Int) = cs.take n := by
  simp [pyIntTake]

/-- `formula_to_clauses` on a rendered `<->`-free formula performs
exactly the reference encoding `encFml`: same literal, clauses appended
to the writer, same counter. -/
theorem ftcAux_render (f : Fml) (hf : hasIff f = false) :
    ∀ (fuel : Nat), (renderL f).length ≤ fuel → ∀ (w : List (List Int)) (tv : Nat),
      ftcAux fuel (renderL f) w tv =
        .ok ((encFml f tv).1, w ++ (encFml f tv).2.1, (encFml f tv).2.2) := by
  induction f with
  | atom i =>
    intro fuel hfu w tv
    rw [ftcAux_atom]
    simp [encFml]
  | iff f g ihf ihg =>
    simp [hasIff] at hf
  | not f ih =>
    intro fuel hfu w tv
    have hig : hasIff f = false := by simpa [hasIff] using hf
    have hlen : (renderL (Fml.not f)).length = (renderL f).length + 3 := by
      simp [renderL]
    rw [hlen] at hfu
    obtain ⟨fuel', rfl⟩ : ∃ fuel', fuel = fuel' + 1 := ⟨fuel - 1, by omega⟩
    have hhead : (renderL (Fml.not f)).head? = some '(' := rfl
    have hlast : (renderL (Fml.not f)).getLast? = some ')' := by
      rw [show renderL (Fml.not f) = ('(' :: '~' :: renderL f) ++ [')'] from by simp [renderL]]
      exact List.getLast?_concat _
    have hcontent : ((renderL (Fml.not f)).drop 1).dropLast = '~' :: renderL f := by
      rw [show (renderL (Fml.not f)).drop 1 = ('~' :: renderL f) ++ [')'] from rfl,
        List.dropLast_concat]
    rw [ftcAux.eq_def]
    (first | dsimp only | skip)
    rw [pyStrip_renderL, lookup_none_of_len (by rw [hlen]; omega)]
    (first | dsimp only | skip)
    rw [if_pos ⟨hhead, hlast⟩, hcontent]
    (first | dsimp only | skip)
    rw [if_pos (show ('~' :: renderL f).head? = some '~' from rfl),
      show ('~' :: renderL f).drop 1 = renderL f from rfl,
      ih hig fuel' (by omega) w tv]
    rcases hE : encFml f tv with ⟨a, cs1, t1⟩
    simp [encFml, hE]
  | and f g ihf ihg =>
    intro fuel hfu w tv
    obtain ⟨hif, hig⟩ : hasIff f = false ∧ hasIff g = false := by
      simpa [hasIff] using hf
    have hlen : (renderL (Fml.and f g)).length =
        (renderL f).length + (renderL g).length + 5 := by
      simp [renderL]
      omega
    rw [hlen] at hfu
    obtain ⟨fuel', rfl⟩ : ∃ fuel', fuel = fuel' + 1 := ⟨fuel - 1, by omega⟩
    have hhead : (renderL (Fml.and f g)).head? = some '(' := rfl
    have hlast : (renderL (Fml.and f g)).getLast? = some ')' := by
      rw [show renderL (Fml.and f g) =
        ('(' :: (renderL f ++ ' ' :: '&' :: ' ' :: renderL g)) ++ [')'] from by simp [renderL]]
      exact List.getLast?_concat _
    have hcontent : ((renderL (Fml.and f g)).drop 1).dropLast =
        renderL f ++ ' ' :: '&' :: ' ' :: renderL g := by
      rw [show (renderL (Fml.and f g)).drop 1 = renderL f ++ ' ' :: '&' :: ' ' :: (renderL g ++ [')']) from rfl,
        show renderL f ++ ' ' :: '&' :: ' ' :: (renderL g ++ [')']) =
          (renderL f ++ ' ' :: '&' :: ' ' :: renderL g) ++ [')'] from by simp,
        List.dropLast_concat]
    have hnotneg : ¬((renderL f ++ ' ' :: '&' :: ' ' :: renderL g).head? = some '~') := by
      obtain ⟨c0, t0, hct, hc0⟩ := renderL_head f
      rw [hct, List.cons_append, List.head?_cons]
      intro h
      rw [Option.some.injEq] at h
      rcases hc0 with h' | h' | h' | h' | h' <;> rw [h'] at h <;> cases h
    have harith : ((((renderL f).length + 1 : Nat) : Int) + ((List.length ['&'] : Nat) : Int)) =
        (((renderL f).length + 2 : Nat) : Int) := by
      push_cast [List.length_cons, List.length_nil]
      ring
    rw [ftcAux.eq_def]
    (first | dsimp only | skip)
    rw [pyStrip_renderL, lookup_none_of_len (by rw [hlen]; omega)]
    (first | dsimp only | skip)
    rw [if_pos ⟨hhead, hlast⟩, hcontent]
    (first | dsimp only | skip)
    rw [if_neg hnotneg, findSplit_top_and f g]
    (first | dsimp only | skip)
    rw [pyIntDrop_ofNat, List.drop_append,
      show (' ' :: '&' :: ' ' :: renderL g).drop 1 = '&' :: ' ' :: renderL g from rfl,
      pySplit_head_one (by decide)]
    (first | dsimp only | skip)
    rw [pyIntTake_ofNat, List.take_append,
      show (' ' :: '&' :: ' ' :: renderL g).take 1 = [' '] from rfl, pyStrip_renderL_space,
      harith,
      pyIntDrop_ofNat, List.drop_append,
      show (' ' :: '&' :: ' ' :: renderL g).drop 2 = ' ' :: renderL g from rfl,
      pyStrip_space_renderL, ihf hif fuel' (by omega) w tv]
    (first | dsimp only | skip)
    rw [ihg hig fuel' (by omega) _ _]
    (first | dsimp only | skip)
    rw [if_pos rfl]
    rcases hE1 : encFml f tv with ⟨a, cs1, t1⟩
    rcases hE2 : encFml g t1 with ⟨b, cs2, t2⟩
    simp [encFml, hE1, hE2, List.append_assoc]
  | or f g ihf ihg =>
    intro fuel hfu w tv
    obtain ⟨hif, hig⟩ : hasIff f = false ∧ hasIff g = false := by
      simpa [hasIff] using hf
    have hlen : (renderL (Fml.or f g)).length =
        (renderL f).length + (renderL g).length + 5 := by
      simp [renderL]
      omega
    rw [hlen] at hfu
    obtain ⟨fuel', rfl⟩ : ∃ fuel', fuel = fuel' + 1 := ⟨fuel - 1, by omega⟩
    have hhead : (renderL (Fml.or f g)).head? = some '(' := rfl
    have hlast : (renderL (Fml.or f g)).getLast? = some ')' := by
      rw [show renderL (Fml.or f g) =
        ('(' :: (renderL f ++ ' ' :: '|' :: ' ' :: renderL g)) ++ [')'] from by simp [renderL]]
      exact List.getLast?_concat _
    have hcontent : ((renderL (Fml.or f g)).drop 1).dropLast =
        renderL f ++ ' ' :: '|' :: ' ' :: renderL g := by
      rw [show (renderL (Fml.or f g)).drop 1 = renderL f ++ ' ' :: '|' :: ' ' :: (renderL g ++ [')']) from rfl,
        show renderL f ++ ' ' :: '|' :: ' ' :: (renderL g ++ [')']) =
          (renderL f ++ ' ' :: '|' :: ' ' :: renderL g) ++ [')'] from by simp,
        List.dropLast_concat]
    have hnotneg : ¬((renderL f ++ ' ' :: '|' :: ' ' :: renderL g).head? = some '~') := by
      obtain ⟨c0, t0, hct, hc0⟩ := renderL_head f
      rw [hct, List.cons_append, List.head?_cons]
      intro h
      rw [Option.some.injEq] at h
      rcases hc0 with h' | h' | h' | h' | h' <;> rw [h'] at h <;> cases h
    have harith : ((((renderL f).length + 1 : Nat) : Int) + ((List.length ['|'] : Nat) : Int)) =
        (((renderL f).length + 2 : Nat) : Int) := by
      push_cast [List.length_cons, List.length_nil]
      ring
    rw [ftcAux.eq_def]
    (first | dsimp only | skip)
    rw [pyStrip_renderL, lookup_none_of_len (by rw [hlen]; omega)]
    (first | dsimp only | skip)
    rw [if_pos ⟨hhead, hlast⟩, hcontent]
    (first | dsimp only | skip)
    rw [if_neg hnotneg, findSplit_top_or f g]
    (first | dsimp only | skip)
    rw [pyIntDrop_ofNat, List.drop_append,
      show (' ' :: '|' :: ' ' :: renderL g).drop 1 = '|' :: ' ' :: renderL g from rfl,
      pySplit_head_one (by decide)]
    (first | dsimp only | skip)
    rw [pyIntTake_ofNat, List.take_append,
      show (' ' :: '|' :: ' ' :: renderL g).take 1 = [' '] from rfl, pyStrip_renderL_space,
      harith,
      pyIntDrop_ofNat, List.drop_append,
      show (' ' :: '|' :: ' ' :: renderL g).drop 2 = ' ' :: renderL g from rfl,
      pyStrip_space_renderL, ihf hif fuel' (by omega) w tv]
    (first | dsimp only | skip)
    rw [ihg hig fuel' (by omega) _ _]
    (first | dsimp only | skip)
    rw [if_neg (by decide), if_pos rfl]
    rcases hE1 : encFml f tv with ⟨a, cs1, t1⟩
    rcases hE2 : encFml g t1 with ⟨b, cs2, t2⟩
    simp [encFml, hE1, hE2, List.append_assoc]
  | imp f g ihf ihg =>
    intro fuel hfu w tv
    obtain ⟨hif, hig⟩ : hasIff f = false ∧ hasIff g = false := by
      simpa [hasIff] using hf
    have hlen : (renderL (Fml.imp f g)).length =
        (renderL f).length + (renderL g).length + 6 := by
      simp [renderL]
      omega
    rw [hlen] at hfu
    obtain ⟨fuel', rfl⟩ : ∃ fuel', fuel = fuel' + 1 := ⟨fuel - 1, by omega⟩
    have hhead : (renderL (Fml.imp f g)).head? = some '(' := rfl
    have hlast : (renderL (Fml.imp f g)).getLast? = some ')' := by
      rw [show renderL (Fml.imp f g) =
        ('(' :: (renderL f ++ ' ' :: '-' :: '>' :: ' ' :: renderL g)) ++ [')'] from by
          simp [renderL]]
      exact List.getLast?_concat _
    have hcontent : ((renderL (Fml.imp f g)).drop 1).dropLast =
        renderL f ++ ' ' :: '-' :: '>' :: ' ' :: renderL g := by
      rw [show (renderL (Fml.imp f g)).drop 1 =
          renderL f ++ ' ' :: '-' :: '>' :: ' ' :: (renderL g ++ [')']) from rfl,
        show renderL f ++ ' ' :: '-' :: '>' :: ' ' :: (renderL g ++ [')']) =
          (renderL f ++ ' ' :: '-' :: '>' :: ' ' :: renderL g) ++ [')'] from by simp,
        List.dropLast_concat]
    have hnotneg : ¬((renderL f ++ ' ' :: '-' :: '>' :: ' ' :: renderL g).head? = some '~') := by
      obtain ⟨c0, t0, hct, hc0⟩ := renderL_head f
      rw [hct, List.cons_append, List.head?_cons]
      intro h
      rw [Option.some.injEq] at h
      rcases hc0 with h' | h' | h' | h' | h' <;> rw [h'] at h <;> cases h
    have harith : ((((renderL f).length + 1 : Nat) : Int) + ((List.length ['-', '>'] : Nat) : Int)) =
        (((renderL f).length + 3 : Nat) : Int) := by
      push_cast [List.length_cons, List.length_nil]
      ring
    rw [ftcAux.eq_def]
    (first | dsimp only | skip)
    rw [pyStrip_renderL, lookup_none_of_len (by rw [hlen]; omega)]
    (first | dsimp only | skip)
    rw [if_pos ⟨hhead, hlast⟩, hcontent]
    (first | dsimp only | skip)
    rw [if_neg hnotneg, findSplit_top_imp f g]
    (first | dsimp only | skip)
    rw [pyIntDrop_ofNat, List.drop_append,
      show (' ' :: '-' :: '>' :: ' ' :: renderL g).drop 1 = '-' :: '>' :: ' ' :: renderL g
        from rfl,
      pySplit_head_two (by decide) (by decide)]
    (first | dsimp only | skip)
    rw [pyIntTake_ofNat, List.take_append,
      show (' ' :: '-' :: '>' :: ' ' :: renderL g).take 1 = [' '] from rfl,
      pyStrip_renderL_space,
      harith,
      pyIntDrop_ofNat, List.drop_append,
      show (' ' :: '-' :: '>' :: ' ' :: renderL g).drop 3 = ' ' :: renderL g from rfl,
      pyStrip_space_renderL, ihf hif fuel' (by omega) w tv]
    (first | dsimp only | skip)
    rw [ihg hig fuel' (by omega) _ _]
    (first | dsimp only | skip)
    rw [if_neg (by decide), if_neg (by decide), if_pos rfl]
    rcases hE1 : encFml f tv with ⟨a, cs1, t1⟩
    rcases hE2 : encFml g t1 with ⟨b, cs2, t2⟩
    simp [encFml, hE1, hE2, List.append_assoc]

/-- Reduction of `formula_to_clauses` on a rendered conjunction down to
the two recursive calls. -/
theorem ftcAux_and_eq (f g : Fml) (fuel' : Nat) (w : List (List Int)) (tv : Nat) :
    ftcAux (fuel' + 1) (renderL (Fml.and f g)) w tv =
      (match ftcAux fuel' (renderL f) w tv with
       | .error e => .error e
       | .ok (a, w1, tv1) =>
         match ftcAux fuel' (renderL g) w1 tv1 with
         | .error e => .error e
         | .ok (b, w2, tv2) =>
           .ok (((tv2 + 1 : Nat) : Int),
             w2 ++ [[-((tv2 + 1 : Nat) : Int), a], [-((tv2 + 1 : Nat) : Int), b],
               [-a, -b, ((tv2 + 1 : Nat) : Int)]],
             tv2 + 1)) := by
  have hlen : (renderL (Fml.and f g)).length =
      (renderL f).length + (renderL g).length + 5 := by
    simp [renderL]
    omega
  have hhead : (renderL (Fml.and f g)).head? = some '(' := rfl
  have hlast : (renderL (Fml.and f g)).getLast? = some ')' := by
    rw [show renderL (Fml.and f g) =
      ('(' :: (renderL f ++ ' ' :: '&' :: ' ' :: renderL g)) ++ [')'] from by simp [renderL]]
    exact List.getLast?_concat _
  have hcontent : ((renderL (Fml.and f g)).drop 1).dropLast =
      renderL f ++ ' ' :: '&' :: ' ' :: renderL g := by
    rw [show (renderL (Fml.and f g)).drop 1 =
        renderL f ++ ' ' :: '&' :: ' ' :: (renderL g ++ [')']) from rfl,
      show renderL f ++ ' ' :: '&' :: ' ' :: (renderL g ++ [')']) =
        (renderL f ++ ' ' :: '&' :: ' ' :: renderL g) ++ [')'] from by simp,
      List.dropLast_concat]
  have hnotneg : ¬((renderL f ++ ' ' :: '&' :: ' ' :: renderL g).head? = some '~') := by
    obtain ⟨c0, t0, hct, hc0⟩ := renderL_head f
    rw [hct, List.cons_append, List.head?_cons]
    intro h
    rw [Option.some.injEq] at h
    rcases hc0 with h' | h' | h' | h' | h' <;> rw [h'] at h <;> cases h
  have harith : ((((renderL f).length + 1 : Nat) : Int) + ((List.length ['&'] : Nat) : Int)) =
      (((renderL f).length + 2 : Nat) : Int) := by
    push_cast [List.length_cons, List.length_nil]
    ring
  rw [ftcAux.eq_def]
  dsimp only
  rw [pyStrip_renderL, lookup_none_of_len (by rw [hlen]; omega)]
  rw [if_pos ⟨hhead, hlast⟩, hcontent]
  dsimp only
  rw [if_neg hnotneg, findSplit_top_and f g]
  dsimp only
  rw [pyIntDrop_ofNat, List.drop_append,
    show (' ' :: '&' :: ' ' :: renderL g).drop 1 = '&' :: ' ' :: renderL g from rfl,
    pySplit_head_one (by decide)]
  dsimp only
  rw [pyIntTake_ofNat, List.take_append,
    show (' ' :: '&' :: ' ' :: renderL g).take 1 = [' '] from rfl, pyStrip_renderL_space,
    harith, pyIntDrop_ofNat, List.drop_append,
    show (' ' :: '&' :: ' ' :: renderL g).drop 2 = ' ' :: renderL g from rfl,
    pyStrip_space_renderL]
  cases hE1 : ftcAux fuel' (renderL f) w tv with
  | error e => rfl
  | ok r1 =>
    rcases r1 with ⟨a, w1, tv1⟩
    dsimp only
    cases hE2 : ftcAux fuel' (renderL g) w1 tv1 with
    | error e => rfl
    | ok r2 =>
      rcases r2 with ⟨b, w2, tv2⟩
      dsimp only
      rw [if_pos rfl]

/-- Reduction of `formula_to_clauses` on a rendered disjunction down to
the two recursive calls. -/
theorem ftcAux_or_eq (f g : Fml) (fuel' : Nat) (w : List (List Int)) (tv : Nat) :
    ftcAux (fuel' + 1) (renderL (Fml.or f g)) w tv =
      (match ftcAux fuel' (renderL f) w tv with
       | .error e => .error e
       | .ok (a, w1, tv1) =>
         match ftcAux fuel' (renderL g) w1 tv1 with
         | .error e => .error e
         | .ok (b, w2, tv2) =>
           .ok (((tv2 + 1 : Nat) : Int),
             w2 ++ [[-((tv2 + 1 : Nat) : Int), a, b], [-a, ((tv2 + 1 : Nat) : Int)],
               [-b, ((tv2 + 1 : Nat) : Int)]],
             tv2 + 1)) := by
  have hlen : (renderL (Fml.or f g)).length =
      (renderL f).length + (renderL g).length + 5 := by
    simp [renderL]
    omega
  have hhead : (renderL (Fml.or f g)).head? = some '(' := rfl
  have hlast : (renderL (Fml.or f g)).getLast? = some ')' := by
    rw [show renderL (Fml.or f g) =
      ('(' :: (renderL f ++ ' ' :: '|' :: ' ' :: renderL g)) ++ [')'] from by simp [renderL]]
    exact List.getLast?_concat _
  have hcontent : ((renderL (Fml.or f g)).drop 1).dropLast =
      renderL f ++ ' ' :: '|' :: ' ' :: renderL g := by
    rw [show (renderL (Fml.or f g)).drop 1 =
        renderL f ++ ' ' :: '|' :: ' ' :: (renderL g ++ [')']) from rfl,
      show renderL f ++ ' ' :: '|' :: ' ' :: (renderL g ++ [')']) =
        (renderL f ++ ' ' :: '|' :: ' ' :: renderL g) ++ [')'] from by simp,
      List.dropLast_concat]
  have hnotneg : ¬((renderL f ++ ' ' :: '|' :: ' ' :: renderL g).head? = some '~') := by
    obtain ⟨c0, t0, hct, hc0⟩ := renderL_head f
    rw [hct, List.cons_append, List.head?_cons]
    intro h
    rw [Option.some.injEq] at h
    rcases hc0 with h' | h' | h' | h' | h' <;> rw [h'] at h <;> cases h
  have harith : ((((renderL f).length + 1 : Nat) : Int) + ((List.length ['|'] : Nat) : Int)) =
      (((renderL f).length + 2 : Nat) : Int) := by
    push_cast [List.length_cons, List.length_nil]
    ring
  rw [ftcAux.eq_def]
  dsimp only
  rw [pyStrip_renderL, lookup_none_of_len (by rw [hlen]; omega)]
  rw [if_pos ⟨hhead, hlast⟩, hcontent]
  dsimp only
  rw [if_neg hnotneg, findSplit_top_or f g]
  dsimp only
  rw [pyIntDrop_ofNat, List.drop_append,
    show (' ' :: '|' :: ' ' :: renderL g).drop 1 = '|' :: ' ' :: renderL g from rfl,
    pySplit_head_one (by decide)]
  dsimp only
  rw [pyIntTake_ofNat, List.take_append,
    show (' ' :: '|' :: ' ' :: renderL g).take 1 = [' '] from rfl, pyStrip_renderL_space,
    harith, pyIntDrop_ofNat, List.drop_append,
    show (' ' :: '|' :: ' ' :: renderL g).drop 2 = ' ' :: renderL g from rfl,
    pyStrip_space_renderL]
  cases hE1 : ftcAux fuel' (renderL f) w tv with
  | error e => rfl
  | ok r1 =>
    rcases r1 with ⟨a, w1, tv1⟩
    dsimp only
    cases hE2 : ftcAux fuel' (renderL g) w1 tv1 with
    | error e => rfl
    | ok r2 =>
      rcases r2 with ⟨b, w2, tv2⟩
      dsimp only
      rw [if_neg (by decide), if_pos rfl]

/-- Reduction of `formula_to_clauses` on a rendered conditional down to
the two recursive calls. -/
theorem ftcAux_imp_eq (f g : Fml) (fuel' : Nat) (w : List (List Int)) (tv : Nat) :
    ftcAux (fuel' + 1) (renderL (Fml.imp f g)) w tv =
      (match ftcAux fuel' (renderL f) w tv with
       | .error e => .error e
       | .ok (a, w1, tv1) =>
         match ftcAux fuel' (renderL g) w1 tv1 with
         | .error e => .error e
         | .ok (b, w2, tv2) =>
           .ok (((tv2 + 1 : Nat) : Int),
             w2 ++ [[-((tv2 + 1 : Nat) : Int), -a, b], [a, ((tv2 + 1 : Nat) : Int)],
               [-b, ((tv2 + 1 : Nat) : Int)]],
             tv2 + 1)) := by
  have hlen : (renderL (Fml.imp f g)).length =
      (renderL f).length + (renderL g).length + 6 := by
    simp [renderL]
    omega
  have hhead : (renderL (Fml.imp f g)).head? = some '(' := rfl
  have hlast : (renderL (Fml.imp f g)).getLast? = some ')' := by
    rw [show renderL (Fml.imp f g) =
      ('(' :: (renderL f ++ ' ' :: '-' :: '>' :: ' ' :: renderL g)) ++ [')'] from by
        simp [renderL]]
    exact List.getLast?_concat _
  have hcontent : ((renderL (Fml.imp f g)).drop 1).dropLast =
      renderL f ++ ' ' :: '-' :: '>' :: ' ' :: renderL g := by
    rw [show (renderL (Fml.imp f g)).drop 1 =
        renderL f ++ ' ' :: '-' :: '>' :: ' ' :: (renderL g ++ [')']) from rfl,
      show renderL f ++ ' ' :: '-' :: '>' :: ' ' :: (renderL g ++ [')']) =
        (renderL f ++ ' ' :: '-' :: '>' :: ' ' :: renderL g) ++ [')'] from by simp,
      List.dropLast_concat]
  have hnotneg : ¬((renderL f ++ ' ' :: '-' :: '>' :: ' ' :: renderL g).head? = some '~') := by
    obtain ⟨c0, t0, hct, hc0⟩ := renderL_head f
    rw [hct, List.cons_append, List.head?_cons]
    intro h
    rw [Option.some.injEq] at h
    rcases hc0 with h' | h' | h' | h' | h' <;> rw [h'] at h <;> cases h
  have harith : ((((renderL f).length + 1 : Nat) : Int) +
      ((List.length ['-', '>'] : Nat) : Int)) =
      (((renderL f).length + 3 : Nat) : Int) := by
    push_cast [List.length_cons, List.length_nil]
    ring
  rw [ftcAux.eq_def]
  dsimp only
  rw [pyStrip_renderL, lookup_none_of_len (by rw [hlen]; omega)]
  rw [if_pos ⟨hhead, hlast⟩, hcontent]
  dsimp only
  rw [if_neg hnotneg, findSplit_top_imp f g]
  dsimp only
  rw [pyIntDrop_ofNat, List.drop_append,
    show (' ' :: '-' :: '>' :: ' ' :: renderL g).drop 1 = '-' :: '>' :: ' ' :: renderL g
      from rfl,
    pySplit_head_two (by decide) (by decide)]
  dsimp only
  rw [pyIntTake_ofNat, List.take_append,
    show (' ' :: '-' :: '>' :: ' ' :: renderL g).take 1 = [' '] from rfl,
    pyStrip_renderL_space, harith, pyIntDrop_ofNat, List.drop_append,
    show (' ' :: '-' :: '>' :: ' ' :: renderL g).drop 3 = ' ' :: renderL g from rfl,
    pyStrip_space_renderL]
  cases hE1 : ftcAux fuel' (renderL f) w tv with
  | error e => rfl
  | ok r1 =>
    rcases r1 with ⟨a, w1, tv1⟩
    dsimp only
    cases hE2 : ftcAux fuel' (renderL g) w1 tv1 with
    | error e => rfl
    | ok r2 =>
      rcases r2 with ⟨b, w2, tv2⟩
      dsimp only
      rw [if_neg (by decide), if_neg (by decide), if_pos rfl]

/-- The left operand produced by the mis-split of a top-level `<->`
(`renderL x ++ " <"`) never parses: it is not an atom and does not end
in `')'`. -/
theorem ftcAux_err_left (x : Fml) (fuel : Nat) (w : List (List Int)) (tv : Nat) :
    ftcAux fuel (renderL x ++ [' ', '<']) w tv =
      .error (.valueError ("Could not parse formula: " ++ String.mk (renderL x ++ [' ', '<']))) := by
  have hlast : (renderL x ++ [' ', '<']).getLast? = some '<' := by
    rw [show renderL x ++ [' ', '<'] = (renderL x ++ [' ']) ++ ['<'] by simp,
      List.getLast?_concat]
  rw [ftcAux.eq_def]
  dsimp only
  rw [pyStrip_renderL_lt, lookup_none_of_len (by simp)]
  rw [if_neg (by
    rintro ⟨-, hl⟩
    rw [hlast, Option.some.injEq] at hl
    cases hl)]

/-- `formula_to_clauses` fails on the rendering of a biconditional: the
scan set `' &|-'` lacks `'<'`, so the split lands on the `'-'` inside
`'<->'` and the left operand keeps a dangling `" <"`. -/
theorem ftcAux_iff_err (f g : Fml) (fuel' : Nat) (w : List (List Int)) (tv : Nat) :
    ftcAux (fuel' + 1) (renderL (Fml.iff f g)) w tv =
      .error (.valueError ("Could not parse formula: " ++ String.mk (renderL f ++ [' ', '<']))) := by
  have hlen : (renderL (Fml.iff f g)).length =
      (renderL f).length + (renderL g).length + 7 := by
    simp [renderL]
    omega
  have hhead : (renderL (Fml.iff f g)).head? = some '(' := rfl
  have hlast : (renderL (Fml.iff f g)).getLast? = some ')' := by
    rw [show renderL (Fml.iff f g) =
      ('(' :: (renderL f ++ ' ' :: '<' :: '-' :: '>' :: ' ' :: renderL g)) ++ [')'] from by
        simp [renderL]]
    exact List.getLast?_concat _
  have hcontent : ((renderL (Fml.iff f g)).drop 1).dropLast =
      renderL f ++ ' ' :: '<' :: '-' :: '>' :: ' ' :: renderL g := by
    rw [show (renderL (Fml.iff f g)).drop 1 =
        renderL f ++ ' ' :: '<' :: '-' :: '>' :: ' ' :: (renderL g ++ [')']) from rfl,
      show renderL f ++ ' ' :: '<' :: '-' :: '>' :: ' ' :: (renderL g ++ [')']) =
        (renderL f ++ ' ' :: '<' :: '-' :: '>' :: ' ' :: renderL g) ++ [')'] from by simp,
      List.dropLast_concat]
  have hnotneg :
      ¬((renderL f ++ ' ' :: '<' :: '-' :: '>' :: ' ' :: renderL g).head? = some '~') := by
    obtain ⟨c0, t0, hct, hc0⟩ := renderL_head f
    rw [hct, List.cons_append, List.head?_cons]
    intro h
    rw [Option.some.injEq] at h
    rcases hc0 with h' | h' | h' | h' | h' <;> rw [h'] at h <;> cases h
  have htake : (renderL f ++ ' ' :: '<' :: '-' :: '>' :: ' ' :: renderL g).take
      ((renderL f).length + 2) = renderL f ++ [' ', '<'] := by
    rw [List.take_append]
    rfl
  rw [ftcAux.eq_def]
  dsimp only
  rw [pyStrip_renderL, lookup_none_of_len (by rw [hlen]; omega)]
  rw [if_pos ⟨hhead, hlast⟩, hcontent]
  dsimp only
  rw [if_neg hnotneg, findSplit_top_iff f g]
  dsimp only
  rw [pyIntDrop_ofNat, List.drop_append,
    show (' ' :: '<' :: '-' :: '>' :: ' ' :: renderL g).drop 2 = '-' :: '>' :: ' ' :: renderL g
      from rfl,
    pySplit_head_two (by decide) (by decide)]
  dsimp only
  rw [pyIntTake_ofNat, htake, pyStrip_renderL_lt, ftcAux_err_left]

/-- Any formula containing a biconditional fails to parse. -/
theorem ftcAux_hasIff_err (f : Fml) (hf : hasIff f = true) :
    ∀ (fuel : Nat), (renderL f).length ≤ fuel → ∀ (w : List (List Int)) (tv : Nat),
      ∃ e, ftcAux fuel (renderL f) w tv = .error e := by
  induction f with
  | atom i => simp [hasIff] at hf
  | not f ih =>
    intro fuel hfu w tv
    have hig : hasIff f = true := by simpa [hasIff] using hf
    have hlen : (renderL (Fml.not f)).length = (renderL f).length + 3 := by
      simp [renderL]
    rw [hlen] at hfu
    obtain ⟨fuel', rfl⟩ : ∃ fuel', fuel = fuel' + 1 := ⟨fuel - 1, by omega⟩
    have hhead : (renderL (Fml.not f)).head? = some '(' := rfl
    have hlast : (renderL (Fml.not f)).getLast? = some ')' := by
      rw [show renderL (Fml.not f) = ('(' :: '~' :: renderL f) ++ [')'] from by simp [renderL]]
      exact List.getLast?_concat _
    have hcontent : ((renderL (Fml.not f)).drop 1).dropLast = '~' :: renderL f := by
      rw [show (renderL (Fml.not f)).drop 1 = ('~' :: renderL f) ++ [')'] from rfl,
        List.dropLast_concat]
    obtain ⟨e, he⟩ := ih hig fuel' (by omega) w tv
    refine ⟨e, ?_⟩
    rw [ftcAux.eq_def]
    dsimp only
    rw [pyStrip_renderL, lookup_none_of_len (by rw [hlen]; omega)]
    rw [if_pos ⟨hhead, hlast⟩, hcontent]
    dsimp only
    rw [if_pos (show ('~' :: renderL f).head? = some '~' from rfl),
      show ('~' :: renderL f).drop 1 = renderL f from rfl, he]
  | and f g ihf ihg =>
    intro fuel hfu w tv
    have hlen : (renderL (Fml.and f g)).length =
        (renderL f).length + (renderL g).length + 5 := by
      simp [renderL]
      omega
    rw [hlen] at hfu
    obtain ⟨fuel', rfl⟩ : ∃ fuel', fuel = fuel' + 1 := ⟨fuel - 1, by omega⟩
    rw [ftcAux_and_eq]
    by_cases hfl : hasIff f = true
    · obtain ⟨e, he⟩ := ihf hfl fuel' (by omega) w tv
      rw [he]
      exact ⟨e, rfl⟩
    · have hgl : hasIff g = true := by
        have := hf
        simp only [hasIff, Bool.or_eq_true] at this
        rcases this with h | h
        · exact absurd h hfl
        · exact h
      rw [ftcAux_render f (Bool.eq_false_iff.mpr hfl) fuel' (by omega) w tv]
      dsimp only
      obtain ⟨e, he⟩ := ihg hgl fuel' (by omega) _ _
      rw [he]
      exact ⟨e, rfl⟩
  | or f g ihf ihg =>
    intro fuel hfu w tv
    have hlen : (renderL (Fml.or f g)).length =
        (renderL f).length + (renderL g).length + 5 := by
      simp [renderL]
      omega
    rw [hlen] at hfu
    obtain ⟨fuel', rfl⟩ : ∃ fuel', fuel = fuel' + 1 := ⟨fuel - 1, by omega⟩
    rw [ftcAux_or_eq]
    by_cases hfl : hasIff f = true
    · obtain ⟨e, he⟩ := ihf hfl fuel' (by omega) w tv
      rw [he]
      exact ⟨e, rfl⟩
    · have hgl : hasIff g = true := by
        have := hf
        simp only [hasIff, Bool.or_eq_true] at this
        rcases this with h | h
        · exact absurd h hfl
        · exact h
      rw [ftcAux_render f (Bool.eq_false_iff.mpr hfl) fuel' (by omega) w tv]
      dsimp only
      obtain ⟨e, he⟩ := ihg hgl fuel' (by omega) _ _
      rw [he]
      exact ⟨e, rfl⟩
  | imp f g ihf ihg =>
    intro fuel hfu w tv
    have hlen : (renderL (Fml.imp f g)).length =
        (renderL f).length + (renderL g).length + 6 := by
      simp [renderL]
      omega
    rw [hlen] at hfu
    obtain ⟨fuel', rfl⟩ : ∃ fuel', fuel = fuel' + 1 := ⟨fuel - 1, by omega⟩
    rw [ftcAux_imp_eq]
    by_cases hfl : hasIff f = true
    · obtain ⟨e, he⟩ := ihf hfl fuel' (by omega) w tv
      rw [he]
      exact ⟨e, rfl⟩
    · have hgl : hasIff g = true := by
        have := hf
        simp only [hasIff, Bool.or_eq_true] at this
        rcases this with h | h
        · exact absurd h hfl
        · exact h
      rw [ftcAux_render f (Bool.eq_false_iff.mpr hfl) fuel' (by omega) w tv]
      dsimp only
      obtain ⟨e, he⟩ := ihg hgl fuel' (by omega) _ _
      rw [he]
      exact ⟨e, rfl⟩
  | iff f g ihf ihg =>
    intro fuel hfu w tv
    have hlen : (renderL (Fml.iff f g)).length =
        (renderL f).length + (renderL g).length + 7 := by
      simp [renderL]
      omega
    rw [hlen] at hfu
    obtain ⟨fuel', rfl⟩ : ∃ fuel', fuel = fuel' + 1 := ⟨fuel - 1, by omega⟩
    exact ⟨_, ftcAux_iff_err f g fuel' w tv⟩

/-! ## Correctness of the entailment engine -/

theorem formula_to_clauses_render (f : Fml) (hf : hasIff f = false)
    (w : List (List Int)) (tv : Nat) :
    formula_to_clauses (render f) w tv =
      .ok ((encFml f tv).1, w ++ (encFml f tv).2.1, (encFml f tv).2.2) :=
  ftcAux_render f hf _ le_rfl w tv

theorem addPremises_render (ps : List Fml) (hps : ∀ f ∈ ps, hasIff f = false) :
    ∀ (w : List (List Int)) (tv : Nat),
      addPremises (ps.map render) w tv =
        .ok (w ++ (encPremises ps tv).1, (encPremises ps tv).2) := by
  induction ps with
  | nil =>
    intro w tv
    simp [addPremises, encPremises]
  | cons f fs ih =>
    intro w tv
    have hf : hasIff f = false := hps f (List.mem_cons_self f fs)
    rw [List.map_cons]
    show addPremises (render f :: fs.map render) w tv = _
    unfold addPremises
    rw [formula_to_clauses_render f hf w tv]
    rcases hE : encFml f tv with ⟨a, cs1, t1⟩
    dsimp only
    rw [ih (fun f' hf' => hps f' (List.mem_cons_of_mem f hf')) (w ++ cs1 ++ [[a]]) t1]
    rcases hP : encPremises fs t1 with ⟨rest, t2⟩
    have hEnc : encPremises (f :: fs) tv = (cs1 ++ [[a]] ++ rest, t2) := by
      simp only [encPremises, hE, hP]
    rw [hEnc]
    simp [List.append_assoc]

theorem addPremises_ok_hasIff (ps : List Fml) :
    ∀ (w : List (List Int)) (tv : Nat) (r : List (List Int) × Nat),
      addPremises (ps.map render) w tv = .ok r → ∀ f ∈ ps, hasIff f = false := by
  induction ps with
  | nil =>
    intro w tv r _ f hf
    exact absurd hf (List.not_mem_nil f)
  | cons f fs ih =>
    intro w tv r hok f' hf'
    rw [List.map_cons] at hok
    unfold addPremises at hok
    by_cases hf : hasIff f = true
    · exfalso
      obtain ⟨e, he⟩ := ftcAux_hasIff_err f hf (render f).data.length le_rfl w tv
      rw [show formula_to_clauses (render f) w tv = .error e from he] at hok
      cases hok
    · rcases List.mem_cons.mp hf' with rfl | hf'
      · exact Bool.eq_false_iff.mpr hf
      · cases hF : formula_to_clauses (render f) w tv with
        | error e =>
          rw [hF] at hok
          cases hok
        | ok r1 =>
          rcases r1 with ⟨lit, w1, tv1⟩
          rw [hF] at hok
          exact ih (w1 ++ [[lit]]) tv1 r hok f' hf'

theorem okTrue_ok (b : Bool) : okTrue (.ok b) = b := by cases b <;> rfl

theorem okFalse_ok (b : Bool) : okFalse (.ok b) = !b := by cases b <;> rfl

/-- Main correctness theorem: on well-formed `<->`-free inputs,
`check_entailment` returns exactly the truth value of semantic
entailment. -/
theorem check_entailment_render (ps : List Fml) (c : Fml)
    (hps : ∀ f ∈ ps, hasIff f = false) (hc : hasIff c = false) :
    check_entailment (ps.map render) (render c) = .ok (decide (Entails ps c)) := by
  have hPS := encPremises_spec ps 4 (le_refl 4)
  rcases hP : encPremises ps 4 with ⟨pcs, tvp⟩
  have p_mono : 4 ≤ tvp := by have := hPS.mono; rw [hP] at this; exact this
  have p_vars : ∀ cc ∈ pcs, ∀ l ∈ cc,
      1 ≤ l.natAbs ∧ l.natAbs ≤ tvp ∧ (l.natAbs ≤ 4 ∨ 4 < l.natAbs) := by
    have := hPS.vars; rw [hP] at this; exact this
  have p_sound : ∀ σ, evalCnf σ pcs = true → ∀ f ∈ ps, evalF (restrict σ) f = true := by
    have := hPS.sound; rw [hP] at this; exact this
  have p_ext : ∀ σ, (∀ f ∈ ps, evalF (restrict σ) f = true) →
      ∃ τ, (∀ k, k ≤ 4 → τ k = σ k) ∧ (∀ k, tvp < k → τ k = σ k) ∧ evalCnf τ pcs = true := by
    have := hPS.ext; rw [hP] at this; exact this
  have hCS := encFml_spec c tvp (by omega)
  rcases hC : encFml c tvp with ⟨cl, ccs, tvc⟩
  have c_pos : 1 ≤ cl.natAbs := by have := hCS.lit_pos; rw [hC] at this; exact this
  have c_le : cl.natAbs ≤ tvc := by have := hCS.lit_le; rw [hC] at this; exact this
  have c_ne0 : cl ≠ 0 := by
    intro h
    rw [h] at c_pos
    simp at c_pos
  have c_mono : tvp ≤ tvc := by have := hCS.mono; rw [hC] at this; exact this
  have c_sound : ∀ σ, evalCnf σ ccs = true → evalLit σ cl = evalF (restrict σ) c := by
    have := hCS.sound; rw [hC] at this; exact this
  have c_ext : ∀ σ, ∃ τ, (∀ k, k ≤ tvp → τ k = σ k) ∧ (∀ k, tvc < k → τ k = σ k) ∧
      evalCnf τ ccs = true ∧ evalLit τ cl = evalF (restrict σ) c := by
    have := hCS.ext; rw [hC] at this; exact this
  have hAdd := addPremises_render ps hps [] 4
  rw [hP] at hAdd
  unfold check_entailment
  rw [hAdd]
  dsimp only
  rw [formula_to_clauses_render c hc ([] ++ pcs) tvp, hC]
  dsimp only
  have hiff : Satisfiable (([] ++ pcs ++ ccs) ++ [[-cl]]) ↔ ¬ Entails ps c := by
    rw [List.nil_append]
    constructor
    · rintro ⟨σ, hσ⟩
      rw [evalCnf_append, evalCnf_append, Bool.and_eq_true, Bool.and_eq_true] at hσ
      obtain ⟨⟨h1, h2⟩, h3⟩ := hσ
      intro hEnt
      have hprem := p_sound σ h1
      have hclit := c_sound σ h2
      have hneg : evalLit σ (-cl) = true := by
        simpa [evalCnf, evalClause_singleton] using h3
      rw [evalLit_neg c_ne0, Bool.not_eq_true'] at hneg
      rw [hneg] at hclit
      rw [hEnt (restrict σ) hprem] at hclit
      cases hclit
    · intro hEnt
      unfold Entails at hEnt
      push_neg at hEnt
      obtain ⟨α, hα, hcα⟩ := hEnt
      have hfalse : evalF α c = false := Bool.eq_false_iff.mpr hcα
      obtain ⟨τ1, hτ1a, hτ1b, hτ1c⟩ := p_ext
        (fun k => if h : 1 ≤ k ∧ k ≤ 4 then α ⟨k - 1, by omega⟩ else false) (by
          have hres0 : restrict (fun k =>
              if h : 1 ≤ k ∧ k ≤ 4 then α ⟨k - 1, by omega⟩ else false) = α := by
            funext i
            show (if h : 1 ≤ i.val + 1 ∧ i.val + 1 ≤ 4 then
              α ⟨i.val + 1 - 1, by omega⟩ else false) = α i
            rw [dif_pos ⟨by omega, by omega⟩]
            congr 1
          rw [hres0]
          exact hα)
      have hres1 : restrict τ1 = α := by
        funext i
        show τ1 (i.val + 1) = α i
        rw [hτ1a (i.val + 1) (by omega)]
        show (if h : 1 ≤ i.val + 1 ∧ i.val + 1 ≤ 4 then
          α ⟨i.val + 1 - 1, by omega⟩ else false) = α i
        rw [dif_pos ⟨by omega, by omega⟩]
        congr 1
      obtain ⟨τ2, hτ2a, hτ2b, hτ2c, hτ2d⟩ := c_ext τ1
      have hres2 : restrict τ1 = restrict τ1 := rfl
      rw [show restrict τ1 = α from hres1] at hτ2d
      refine ⟨τ2, ?_⟩
      rw [evalCnf_append, evalCnf_append, Bool.and_eq_true, Bool.and_eq_true]
      refine ⟨⟨?_, hτ2c⟩, ?_⟩
      · rw [evalCnf_congr (n := tvp) (fun cc hcc l hl => (p_vars cc hcc l hl).2.1) hτ2a]
        exact hτ1c
      · simp [evalCnf, evalClause_singleton, evalLit_neg c_ne0, hτ2d, hfalse]
  have hbool : (!(solve (([] ++ pcs ++ ccs) ++ [[-cl]]))) = decide (Entails ps c) := by
    by_cases hEnt : Entails ps c
    · have hnot : ¬ Satisfiable (([] ++ pcs ++ ccs) ++ [[-cl]]) := fun h => (hiff.mp h) hEnt
      have : solve (([] ++ pcs ++ ccs) ++ [[-cl]]) = false := by
        rw [← Bool.not_eq_true, solve_iff]
        exact hnot
      rw [this, decide_eq_true hEnt]
      rfl
    · have : solve (([] ++ pcs ++ ccs) ++ [[-cl]]) = true := by
        rw [solve_iff]
        exact hiff.mpr hEnt
      rw [this, decide_eq_false hEnt]
      rfl
  rw [hbool]

/-- Correctness of `check_contradiction`: it reports `True` exactly when
the premises have no satisfying truth assignment. -/
theorem check_contradiction_render (ps : List Fml)
    (hps : ∀ f ∈ ps, hasIff f = false) :
    check_contradiction (ps.map render) = .ok (decide (¬ JointlySat ps)) := by
  have hPS := encPremises_spec ps 4 (le_refl 4)
  rcases hP : encPremises ps 4 with ⟨pcs, tvp⟩
  have p_sound : ∀ σ, evalCnf σ pcs = true → ∀ f ∈ ps, evalF (restrict σ) f = true := by
    have := hPS.sound; rw [hP] at this; exact this
  have p_ext : ∀ σ, (∀ f ∈ ps, evalF (restrict σ) f = true) →
      ∃ τ, (∀ k, k ≤ 4 → τ k = σ k) ∧ (∀ k, tvp < k → τ k = σ k) ∧ evalCnf τ pcs = true := by
    have := hPS.ext; rw [hP] at this; exact this
  have hAdd := addPremises_render ps hps [] 4
  rw [hP] at hAdd
  unfold check_contradiction
  rw [hAdd]
  dsimp only
  have hiff : Satisfiable ([] ++ pcs) ↔ JointlySat ps := by
    rw [List.nil_append]
    constructor
    · rintro ⟨σ, hσ⟩
      exact ⟨restrict σ, p_sound σ hσ⟩
    · rintro ⟨α, hα⟩
      obtain ⟨τ1, hτ1a, hτ1b, hτ1c⟩ := p_ext
        (fun k => if h : 1 ≤ k ∧ k ≤ 4 then α ⟨k - 1, by omega⟩ else false) (by
          have hres0 : restrict (fun k =>
              if h : 1 ≤ k ∧ k ≤ 4 then α ⟨k - 1, by omega⟩ else false) = α := by
            funext i
            show (if h : 1 ≤ i.val + 1 ∧ i.val + 1 ≤ 4 then
              α ⟨i.val + 1 - 1, by omega⟩ else false) = α i
            rw [dif_pos ⟨by omega, by omega⟩]
            congr 1
          rw [hres0]
          exact hα)
      exact ⟨τ1, hτ1c⟩
  have hbool : (!(solve ([] ++ pcs))) = decide (¬ JointlySat ps) := by
    by_cases hJ : JointlySat ps
    · have : solve ([] ++ pcs) = true := by
        rw [solve_iff]
        exact hiff.mpr hJ
      rw [this, decide_eq_false (by simpa using hJ)]
      rfl
    · have : solve ([] ++ pcs) = false := by
        rw [← Bool.not_eq_true, solve_iff]
        exact fun h => hJ (hiff.mp h)
      rw [this, decide_eq_true (by simpa using hJ)]
      rfl
  rw [hbool]

/-! ## Embedding of `generate_formula` (`entailment_finder_interactive.py`)

The `connectives` dictionary is modelled as an insertion-ordered
association list (`entries`), mirroring a Python dict; `keys()` is the
list of first components and `connectives[k]` is the association-list
lookup.  The random source is modelled as two oracle streams consumed at
an incrementing index: `flip k` models the `random.random() < 0.25`
draw and `pick k` the index drawn by `random.choice`. -/

structure Palette where
  entries : List (String × List String)

structure RandSrc where
  flip : Nat → Bool
  pick : Nat → Nat

/-- `random.choice(lst)` driven by the oracle draw at index `k`. -/
def pyChoice (r : RandSrc) (k : Nat) (l : List String) : String :=
  l.getD (r.pick k % l.length) ""

/-- `connectives[key]` (the palettes used here always contain the key). -/
def dictGet (p : Palette) (key : String) : List String :=
  (p.entries.lookup key).getD []

/-- `generate_formula(depth, connectives)`
(`entailment_finder_interactive.py`, lines 27-50).  Returns the formula
string and the next unused oracle index. -/
def generate_formula (conn : Palette) (r : RandSrc) : Nat → Nat → String × Nat
  | 0, k => (pyChoice r k ATOMS, k + 1)
  | d + 1, k =>
    if r.flip k then (pyChoice r (k + 1) ATOMS, k + 2)
    else if (conn.entries.map Prod.fst) = [] then (pyChoice r (k + 1) ATOMS, k + 2)
    else
      if pyChoice r (k + 1) (conn.entries.map Prod.fst) = "unary" then
        let op := pyChoice r (k + 2) (dictGet conn "unary")
        let sub := generate_formula conn r d (k + 3)
        ("(" ++ op ++ sub.1 ++ ")", sub.2)
      else
        let op := pyChoice r (k + 2) (dictGet conn "binary")
        let left := generate_formula conn r d (k + 3)
        let rght := generate_formula conn r d left.2
        ("(" ++ left.1 ++ " " ++ op ++ " " ++ rght.1 ++ ")", rght.2)

/-- The bundle selected by menu choice `1`:
`{'binary': ['&', '->']}` (`entailment_finder_interactive.py`, line 122). -/
def basicConnectives : Palette := ⟨[("binary", ["&", "->"])]⟩

/-! ## Embedding of `src/symbol_standardizer.py` -/

/-- `SYMBOL_MAP` (`src/symbol_standardizer.py`, lines 2-8), in dict
insertion order. -/
def SYMBOL_MAP : List (String × String) :=
  [("|", "v"), ("&", "&"), ("->", "->"), ("<->", "<->"), ("~", "~")]

/-- Python `str.replace(old, new)` on character lists: replace every
non-overlapping occurrence left to right.  Fuelled for structural
recursion; each step consumes at least one character when `old` is
nonempty, so `fuel = s.length` (as supplied by `pyReplace`) always
suffices, and at `fuel = 0` the remaining (empty) suffix is returned
unchanged. -/
def pyReplaceAux (old new : List Char) : Nat → List Char → List Char
  | 0, s => s
  | fuel + 1, s =>
    match s with
    | [] => []
    | c :: rest =>
      if List.isPrefixOf old s then new ++ pyReplaceAux old new fuel (s.drop old.length)
      else c :: pyReplaceAux old new fuel rest

/-- Python `str.replace(old, new)`. -/
def pyReplace (s old new : List Char) : List Char :=
  pyReplaceAux old new s.length s

/-- `standardize_symbols(formula)` (`src/symbol_standardizer.py`,
lines 10-14): apply each `SYMBOL_MAP` replacement in dict order. -/
def standardize_symbols (formula : String) : String :=
  String.mk (SYMBOL_MAP.foldl (fun s p => pyReplace s p.1.data p.2.data) formula.data)

/-- The reversed map `{v: k for k, v in SYMBOL_MAP.items()}`
(`src/symbol_standardizer.py`, line 18). -/
def reverse_map : List (String × String) :=
  [("v", "|"), ("&", "&"), ("->", "->"), ("<->", "<->"), ("~", "~")]

/-- `restore_internal_symbols(formula)` (`src/symbol_standardizer.py`,
lines 16-21). -/
def restore_internal_symbols (formula : String) : String :=
  String.mk (reverse_map.foldl (fun s p => pyReplace s p.1.data p.2.data) formula.data)

theorem removeAt_map {α β : Type} (f : α → β) (l : List α) (i : Nat) :
    removeAt (l.map f) i = (removeAt l i).map f := by
  simp [removeAt, List.map_take, List.map_drop]

theorem mem_removeAt {α : Type} {x : α} {l : List α} {i : Nat}
    (h : x ∈ removeAt l i) : x ∈ l := by
  rcases List.mem_append.mp h with h' | h'
  · exact List.take_subset i l h'
  · exact List.drop_subset (i + 1) l h'

theorem pyChoice_mem (r : RandSrc) (k : Nat) (l : List String) (hl : l ≠ []) :
    pyChoice r k l ∈ l := by
  unfold pyChoice
  have hlt : r.pick k % l.length < l.length :=
    Nat.mod_lt _ (List.length_pos.mpr hl)
  rw [List.getD_eq_getElem?_getD, List.getElem?_eq_getElem hlt, Option.getD_some]
  exact List.getElem_mem hlt

/-- A successful `check_entailment` run certifies that every input
formula was `<->`-free (any biconditional aborts with `ValueError`). -/
theorem check_ok_iffFree (ps : List Fml) (c : Fml) (b : Bool)
    (h : check_entailment (ps.map render) (render c) = .ok b) :
    (∀ f ∈ ps, hasIff f = false) ∧ hasIff c = false := by
  unfold check_entailment at h
  cases hA : addPremises (ps.map render) [] 4 with
  | error e =>
    rw [hA] at h
    cases h
  | ok r =>
    rcases r with ⟨w, tv⟩
    rw [hA] at h
    dsimp only at h
    refine ⟨addPremises_ok_hasIff ps [] 4 (w, tv) hA, ?_⟩
    by_cases hc : hasIff c = true
    · exfalso
      obtain ⟨e, he⟩ := ftcAux_hasIff_err c hc (render c).data.length le_rfl w tv
      rw [show formula_to_clauses (render c) w tv = .error e from he] at h
      cases h
    · exact Bool.eq_false_iff.mpr hc

theorem atom_chars {s : String} (hs : s ∈ ATOMS) :
    ∀ ch ∈ s.data, ch ∈ ['P', 'Q', 'R', 'S', '(', ')', ' ', '&', '-', '>'] := by
  rcases show s = "P" ∨ s = "Q" ∨ s = "R" ∨ s = "S" by simpa [ATOMS] using hs
    with rfl | rfl | rfl | rfl <;>
    · intro ch hch
      rcases List.mem_singleton.mp hch with rfl
      decide

/-- Character inventory of everything the basic-palette generator can
emit: atoms, parentheses, space, and the characters of `&` and `->`. -/
theorem generate_basic_chars : ∀ (d k : Nat) (r : RandSrc),
    ∀ ch ∈ (generate_formula basicConnectives r d k).1.data,
      ch ∈ ['P', 'Q', 'R', 'S', '(', ')', ' ', '&', '-', '>'] := by
  intro d
  induction d with
  | zero =>
    intro k r ch hch
    simp only [generate_formula] at hch
    exact atom_chars (pyChoice_mem r k ATOMS (by decide)) ch hch
  | succ d ih =>
    intro k r ch hch
    simp only [generate_formula] at hch
    by_cases hfl : r.flip k = true
    · rw [if_pos hfl] at hch
      exact atom_chars (pyChoice_mem r (k + 1) ATOMS (by decide)) ch hch
    · rw [if_neg hfl, if_neg (by decide)] at hch
      rw [if_neg (by
        show ¬(pyChoice r (k + 1) (basicConnectives.entries.map Prod.fst) = "unary")
        rw [show basicConnectives.entries.map Prod.fst = ["binary"] from rfl,
          show pyChoice r (k + 1) ["binary"] = "binary" from by
            simp [pyChoice, Nat.mod_one]]
        decide)] at hch
      dsimp only at hch
      have hopc : ∀ ch2 ∈ (pyChoice r (k + 2) (dictGet basicConnectives "binary")).data,
          ch2 ∈ ['P', 'Q', 'R', 'S', '(', ')', ' ', '&', '-', '>'] := by
        have hop := pyChoice_mem r (k + 2) (dictGet basicConnectives "binary") (by decide)
        rcases show pyChoice r (k + 2) (dictGet basicConnectives "binary") = "&" ∨
            pyChoice r (k + 2) (dictGet basicConnectives "binary") = "->" by
            simpa [dictGet, basicConnectives] using hop with h | h <;> rw [h]
        · intro ch2 hch2
          rcases List.mem_singleton.mp hch2 with rfl
          decide
        · intro ch2 hch2
          rcases List.mem_cons.mp hch2 with rfl | hch3
          · decide
          · rcases List.mem_singleton.mp hch3 with rfl
            decide
      rw [show ("(" ++ (generate_formula basicConnectives r d (k + 3)).1 ++ " " ++
          pyChoice r (k + 2) (dictGet basicConnectives "binary") ++ " " ++
          (generate_formula basicConnectives r d
            (generate_formula basicConnectives r d (k + 3)).2).1 ++ ")").data =
        "(".data ++ (generate_formula basicConnectives r d (k + 3)).1.data ++ " ".data ++
          (pyChoice r (k + 2) (dictGet basicConnectives "binary")).data ++ " ".data ++
          (generate_formula basicConnectives r d
            (generate_formula basicConnectives r d (k + 3)).2).1.data ++ ")".data from by
        simp [String.data_append]] at hch
      simp only [List.mem_append] at hch
      rcases hch with ((((((h | h) | h) | h) | h) | h) | h)
      · rcases List.mem_singleton.mp h with rfl
        decide
      · exact ih (k + 3) r ch h
      · rcases List.mem_singleton.mp h with rfl
        decide
      · exact hopc ch h
      · rcases List.mem_singleton.mp h with rfl
        decide
      · exact ih _ r ch h
      · rcases List.mem_singleton.mp h with rfl
        decide

/-- Replacing a pattern by itself is the identity, at any fuel. -/
theorem pyReplaceAux_self (p : List Char) : ∀ (fuel : Nat) (s : List Char),
    pyReplaceAux p p fuel s = s := by
  intro fuel
  induction fuel with
  | zero => intro s; rfl
  | succ fuel ih =>
    intro s
    cases s with
    | nil => rfl
    | cons c rest =>
      simp only [pyReplaceAux]
      by_cases h : List.isPrefixOf p (c :: rest) = true
      · rw [if_pos h, ih]
        exact List.prefix_iff_eq_append.mp (List.isPrefixOf_iff_prefix.mp h)
      · rw [if_neg h, ih]

/-- Replacing one single character by another is a pointwise map. -/
theorem pyReplaceAux_single (a b : Char) : ∀ (fuel : Nat) (s : List Char),
    s.length ≤ fuel →
    pyReplaceAux [a] [b] fuel s = s.map (fun c => if c = a then b else c) := by
  intro fuel
  induction fuel with
  | zero =>
    intro s hs
    rw [List.length_eq_zero.mp (Nat.le_zero.mp hs)]
    rfl
  | succ fuel ih =>
    intro s hs
    cases s with
    | nil => rfl
    | cons c rest =>
      have hr : rest.length ≤ fuel := by
        simp only [List.length_cons] at hs
        omega
      simp only [pyReplaceAux, List.map_cons]
      by_cases h : c = a
      · subst h
        rw [if_pos (show List.isPrefixOf [c] (c :: rest) = true from by
          simp [List.isPrefixOf])]
        rw [show List.drop (List.length [c]) (c :: rest) = rest from rfl, ih rest hr]
        simp
      · rw [if_neg (show ¬List.isPrefixOf [a] (c :: rest) = true from by
          simp only [List.isPrefixOf, List.isPrefixOf_nil_left, Bool.and_true,
            beq_iff_eq]
          exact fun hh => h hh.symm)]
        rw [if_neg h, ih rest hr]

theorem pyReplace_self (s p : List Char) : pyReplace s p p = s :=
  pyReplaceAux_self p s.length s

theorem pyReplace_single (s : List Char) (a b : Char) :
    pyReplace s [a] [b] = s.map (fun c => if c = a then b else c) :=
  pyReplaceAux_single a b s.length s (Nat.le_refl _)

/-- `standardize_symbols` only rewrites `|` to `v`; every other entry of
`SYMBOL_MAP` maps a token to itself. -/
theorem standardize_symbols_eq (s : String) :
    standardize_symbols s
      = String.mk (s.data.map (fun c => if c = '|' then 'v' else c)) := by
  show String.mk
      (List.foldl (fun s p => pyReplace s p.1.data p.2.data) s.data SYMBOL_MAP) = _
  rw [show SYMBOL_MAP
      = [("|", "v"), ("&", "&"), ("->", "->"), ("<->", "<->"), ("~", "~")] from rfl]
  simp only [List.foldl_cons, List.foldl_nil]
  rw [pyReplace_self, pyReplace_self, pyReplace_self, pyReplace_self, pyReplace_single]

/-- `restore_internal_symbols` only rewrites `v` back to `|`. -/
theorem restore_internal_symbols_eq (s : String) :
    restore_internal_symbols s
      = String.mk (s.data.map (fun c => if c = 'v' then '|' else c)) := by
  show String.mk
      (List.foldl (fun s p => pyReplace s p.1.data p.2.data) s.data reverse_map) = _
  rw [show reverse_map
      = [("v", "|"), ("&", "&"), ("->", "->"), ("<->", "<->"), ("~", "~")] from rfl]
  simp only [List.foldl_cons, List.foldl_nil]
  rw [pyReplace_self, pyReplace_self, pyReplace_self, pyReplace_self, pyReplace_single]

/-- FILTER 3 rejects exactly when some single-premise removal still
entails the conclusion (on well-formed `<->`-free inputs). -/
theorem necessity_filter_iff (ps : List Fml) (c : Fml)
    (hps : ∀ f ∈ ps, hasIff f = false) (hc : hasIff c = false) :
    necessity_filter (ps.map render) (render c) = false ↔
      (1 < ps.length ∧ ∃ i, i < ps.length ∧ Entails (removeAt ps i) c) := by
  unfold necessity_filter
  rw [List.length_map]
  by_cases hlen : 1 < ps.length
  · rw [if_pos hlen]
    have hpoint : ∀ i, okTrue (check_entailment (removeAt (ps.map render) i) (render c))
        = decide (Entails (removeAt ps i) c) := by
      intro i
      rw [removeAt_map, check_entailment_render (removeAt ps i) c
        (fun f hf => hps f (mem_removeAt hf)) hc, okTrue_ok]
    constructor
    · intro hall
      refine ⟨hlen, ?_⟩
      by_contra hcon
      push_neg at hcon
      have hAll : ∀ i ∈ List.range ps.length,
          (!(okTrue (check_entailment (removeAt (List.map render ps) i) (render c)))) = true := by
        intro i hi
        rw [hpoint i, decide_eq_false (hcon i (List.mem_range.mp hi))]
        rfl
      exact absurd (hall ▸ List.all_eq_true.mpr hAll) Bool.false_ne_true
    · rintro ⟨-, i, hi, hent⟩
      by_contra hcon
      have hAll := List.all_eq_true.mp (Bool.ne_false_iff.mp hcon) i
        (List.mem_range.mpr hi)
      rw [hpoint i, decide_eq_true hent] at hAll
      exact absurd hAll (by decide)
  · rw [if_neg hlen]
    simp only [Bool.true_eq_false, false_iff]
    rintro ⟨hl, -⟩
    exact hlen hl

/-- The full acceptance invariant of the generate-and-filter loop: an
accepted candidate (with the loop's guaranteed deduplicated premises and
premise count of at least two) entails its conclusion, has jointly
satisfiable and pairwise-distinct premises, a conclusion distinct from
every premise, and every premise necessary. -/
theorem accepted_invariant (ps : List Fml) (c : Fml)
    (hdup : (List.map render ps).Nodup) (hlen : 1 < ps.length)
    (hacc : accepted (ps.map render) (render c) = true) :
    Entails ps c ∧ JointlySat ps ∧ render c ∉ List.map render ps ∧
      (∀ i, i < ps.length → ¬ Entails (removeAt ps i) c) ∧ ps.Nodup := by
  unfold accepted at hacc
  simp only [Bool.and_eq_true] at hacc
  obtain ⟨⟨⟨hmem, hent⟩, hcontra⟩, hnec⟩ := hacc
  have hokE : ∃ b, check_entailment (ps.map render) (render c) = .ok b := by
    cases hE : check_entailment (ps.map render) (render c) with
    | error e => rw [hE] at hent; cases hent
    | ok b => exact ⟨b, rfl⟩
  obtain ⟨b, hE⟩ := hokE
  obtain ⟨hpsIff, hcIff⟩ := check_ok_iffFree ps c b hE
  rw [check_entailment_render ps c hpsIff hcIff, okTrue_ok] at hent
  rw [check_contradiction_render ps hpsIff, okFalse_ok] at hcontra
  refine ⟨of_decide_eq_true hent, ?_, ?_, ?_, List.Nodup.of_map render hdup⟩
  · by_contra hJ
    rw [decide_eq_true (show ¬ JointlySat ps from hJ)] at hcontra
    exact absurd hcontra (by decide)
  · intro hinmem
    rw [Bool.not_eq_true', ← Bool.not_eq_true] at hmem
    exact hmem (List.contains_eq_any_beq (List.map render ps) (render c) ▸
      (List.any_eq_true.mpr ⟨render c, hinmem, by simp⟩))
  · intro i hi hent'
    have hfalse : necessity_filter (ps.map render) (render c) = false :=
      (necessity_filter_iff ps c hpsIff hcIff).mpr ⟨hlen, i, hi, hent'⟩
    rw [hfalse] at hnec
    cases hnec

/-! ## Embedding of the regex-based parser variant

`entailment_finder_interactive.py` (lines 53-82) and
`test_biconditional_generation.py` (lines 12-38) replace the scan loop
by `re.search(r'^(.*)\\s(<->|->|&|\\|)\\s(.*)$', content)`.  The greedy
`(.*)` makes the engine backtrack from the longest prefix, so the match
chooses the largest boundary index `i` at which a whitespace, one
alternative (tried in alternation order `<->`, `->`, `&`, `|`) and a
trailing whitespace all match; parenthesis depth plays no role. -/

/-- Does position `j` of `content` hold a whitespace character
(the regex token `\\s`)? -/
def wsAt (content : List Char) (j : Nat) : Bool :=
  match content.get? j with
  | some c => c.isWhitespace
  | none => false

/-- The alternation `(<->|->|&|\\|)` tried right after a `\\s` at
position `i`: the first alternative that matches at `i + 1` and is
followed by a `\\s`. -/
def reOpAt (content : List Char) (i : Nat) : Option (List Char) :=
  if wsAt content i then
    if List.isPrefixOf ['<', '-', '>'] (content.drop (i + 1)) ∧ wsAt content (i + 4) then
      some ['<', '-', '>']
    else if List.isPrefixOf ['-', '>'] (content.drop (i + 1)) ∧ wsAt content (i + 3) then
      some ['-', '>']
    else if List.isPrefixOf ['&'] (content.drop (i + 1)) ∧ wsAt content (i + 2) then
      some ['&']
    else if List.isPrefixOf ['|'] (content.drop (i + 1)) ∧ wsAt content (i + 2) then
      some ['|']
    else none
  else none

/-- Boundary search of the regex match, from the given index downward
(the greedy `(.*)` tries the rightmost boundary first). -/
def reSearchAux (content : List Char) : Nat → Option (Nat × List Char)
  | 0 =>
    match reOpAt content 0 with
    | some op => some (0, op)
    | none => none
  | i + 1 =>
    match reOpAt content (i + 1) with
    | some op => some (i + 1, op)
    | none => reSearchAux content i

/-- `re.search(r'^(.*)\\s(<->|->|&|\\|)\\s(.*)$', content)`, reduced to
the boundary index of the matched `\\s` and the operator token. -/
def reSearch (content : List Char) : Option (Nat × List Char) :=
  match content.length with
  | 0 => none
  | n + 1 => reSearchAux content n

/-- The body of the regex-based `formula_to_clauses`
(`entailment_finder_interactive.py`, lines 53-82; identically in
`test_biconditional_generation.py` up to its three-atom `ATOM_MAP`),
fuelled like `ftcAux`.  It strips the content inside the outer
parentheses (the scan-loop version does not) and uses `cnf_writer.extend`
with the same clause lists, including the reachable `<->` schema. -/
def ftcIAux : Nat → List Char → List (List Int) → Nat →
    Except PyErr (Int × List (List Int) × Nat)
  | fuel, cs, w, tv =>
    let s := pyStrip cs
    match ATOM_MAP.lookup (String.mk s) with
    | some n => .ok (n, w, tv)
    | none =>
      if s.head? = some '(' ∧ s.getLast? = some ')' then
        match fuel with
        | 0 => .error (.valueError ("Could not parse formula: " ++ String.mk s))
        | fuel' + 1 =>
          let content := pyStrip ((s.drop 1).dropLast)
          if content.head? = some '~' then
            match ftcIAux fuel' (content.drop 1) w tv with
            | .error e => .error e
            | .ok (lit, w1, tv1) => .ok (-lit, w1, tv1)
          else
            match reSearch content with
            | none => .error (.valueError ("Could not parse formula: " ++ String.mk s))
            | some (i, opStr) =>
              let leftStr := pyStrip (content.take i)
              let rightStr := pyStrip (content.drop (i + 1 + opStr.length + 1))
              match ftcIAux fuel' leftStr w tv with
              | .error e => .error e
              | .ok (a, w1, tv1) =>
                match ftcIAux fuel' rightStr w1 tv1 with
                | .error e => .error e
                | .ok (b, w2, tv2) =>
                  let v : Nat := tv2 + 1
                  let defs : List (List Int) :=
                    if opStr = ['&'] then
                      [[-(v : Int), a], [-(v : Int), b], [-a, -b, (v : Int)]]
                    else if opStr = ['|'] then
                      [[-(v : Int), a, b], [-a, (v : Int)], [-b, (v : Int)]]
                    else if opStr = ['-', '>'] then
                      [[-(v : Int), -a, b], [a, (v : Int)], [-b, (v : Int)]]
                    else if opStr = ['<', '-', '>'] then
                      [[-(v : Int), -a, b], [-(v : Int), -b, a],
                       [a, b, (v : Int)], [-a, -b, (v : Int)]]
                    else []
                  .ok ((v : Int), w2 ++ defs, v)
      else .error (.valueError ("Could not parse formula: " ++ String.mk s))

/-- The regex-based `formula_to_clauses` of the interactive variant. -/
def formula_to_clauses_i (s : String) (w : List (List Int)) (tv : Nat) :
    Except PyErr (Int × List (List Int) × Nat) :=
  ftcIAux s.data.length s.data w tv

/-! ## Parse success is independent of the writer and the counter

The scan-loop parser's control flow (and hence which error, if any, it
raises) depends only on the input string: the clause writer and the
variable counter only shape the `ok` payload. -/

set_option maxHeartbeats 1000000 in
theorem ftcAux_err_indep : ∀ (fuel : Nat) (s : List Char) (w w' : List (List Int))
    (tv tv' : Nat) (e : PyErr),
    ftcAux fuel s w tv = .error e → ftcAux fuel s w' tv' = .error e := by
  intro fuel
  induction fuel with
  | zero =>
    intro s w w' tv tv' e h
    rw [ftcAux.eq_def] at h ⊢
    dsimp only at h ⊢
    cases hlk : ATOM_MAP.lookup (String.mk (pyStrip s)) with
    | some n =>
      rw [hlk] at h
      dsimp only at h
      exact Except.noConfusion h
    | none =>
      rw [hlk] at h
      dsimp only at h ⊢
      revert h
      generalize pyStrip s = ss
      by_cases hpar : ss.head? = some '(' ∧ ss.getLast? = some ')'
      · simp only [if_pos hpar]
        intro h
        exact h
      · simp only [if_neg hpar]
        intro h
        exact h
  | succ fuel ih =>
    intro s w w' tv tv' e h
    rw [ftcAux.eq_def] at h ⊢
    dsimp only at h ⊢
    cases hlk : ATOM_MAP.lookup (String.mk (pyStrip s)) with
    | some n =>
      rw [hlk] at h
      dsimp only at h
      exact Except.noConfusion h
    | none =>
      rw [hlk] at h
      dsimp only at h ⊢
      revert h
      generalize pyStrip s = ss
      by_cases hpar : ss.head? = some '(' ∧ ss.getLast? = some ')'
      · simp only [if_pos hpar]
        generalize (ss.drop 1).dropLast = content
        by_cases hneg : content.head? = some '~'
        · simp only [if_pos hneg]
          generalize content.drop 1 = sub
          cases hL : ftcAux fuel sub w tv with
          | error e1 =>
            dsimp only
            intro h
            injection h with he
            subst he
            rw [ih sub w w' tv tv' e1 hL]
          | ok r1 =>
            rcases r1 with ⟨lit, w1, tv1⟩
            dsimp only
            intro h
            exact Except.noConfusion h
        · simp only [if_neg hneg]
          generalize findSplit content 0 0 = fsp
          generalize (match fsp with
            | some i => (i : Int)
            | none => (-1 : Int)) = splitIdx
          generalize pyStrip (pyIntTake content splitIdx) = leftStr
          cases hop : (pySplit (pyIntDrop content splitIdx)).head? with
          | none =>
            dsimp only
            intro h
            exact h
          | some opStr =>
            dsimp only
            generalize pyStrip (pyIntDrop content (splitIdx + (opStr.length : Int))) = rightStr
            cases hL : ftcAux fuel leftStr w tv with
            | error e1 =>
              dsimp only
              intro h
              injection h with he
              subst he
              rw [ih leftStr w w' tv tv' e1 hL]
            | ok r1 =>
              rcases r1 with ⟨a, w1, tv1⟩
              dsimp only
              cases hL' : ftcAux fuel leftStr w' tv' with
              | error e1 =>
                intro h
                exfalso
                have h2 := ih leftStr w' w tv' tv e1 hL'
                rw [hL] at h2
                exact Except.noConfusion h2
              | ok r1' =>
                rcases r1' with ⟨a2, w1', tv1'⟩
                dsimp only
                cases hR : ftcAux fuel rightStr w1 tv1 with
                | error e2 =>
                  dsimp only
                  intro h
                  injection h with he
                  subst he
                  rw [ih rightStr w1 w1' tv1 tv1' e2 hR]
                | ok r2 =>
                  rcases r2 with ⟨b, w2, tv2⟩
                  dsimp only
                  intro h
                  exact Except.noConfusion h
      · simp only [if_neg hpar]
        intro h
        exact h

/-- Parse success transfers to the canonical initial state. -/
theorem formula_to_clauses_ok_indep (p : String) (w : List (List Int)) (tv : Nat)
    (r : Int × List (List Int) × Nat) (h : formula_to_clauses p w tv = .ok r) :
    ∃ r2, formula_to_clauses p [] 4 = .ok r2 := by
  cases h2 : formula_to_clauses p [] 4 with
  | ok r2 => exact ⟨r2, rfl⟩
  | error e =>
    exfalso
    have h3 := ftcAux_err_indep p.data.length p.data [] w 4 tv e h2
    rw [show formula_to_clauses p w tv
      = ftcAux p.data.length p.data w tv from rfl, h3] at h
    exact Except.noConfusion h

/-- A successful premise loop certifies that every premise parses. -/
theorem addPremises_ok_parses : ∀ (ps : List String) (w : List (List Int)) (tv : Nat)
    (r : List (List Int) × Nat), addPremises ps w tv = .ok r →
    ∀ p ∈ ps, ∃ r2, formula_to_clauses p [] 4 = .ok r2 := by
  intro ps
  induction ps with
  | nil =>
    intro w tv r _ p hp
    exact absurd hp (List.not_mem_nil p)
  | cons q qs ih =>
    intro w tv r h p hp
    unfold addPremises at h
    cases hq : formula_to_clauses q w tv with
    | error e =>
      rw [hq] at h
      exact Except.noConfusion h
    | ok r1 =>
      rcases r1 with ⟨lit, w1, tv1⟩
      rw [hq] at h
      rcases List.mem_cons.mp hp with rfl | hp2
      · exact formula_to_clauses_ok_indep p w tv _ hq
      · exact ih (w1 ++ [[lit]]) tv1 r h p hp2

/-- A boolean verdict from `check_entailment` certifies that every
premise and the conclusion parse: a parse failure is never converted
into an answer. -/
theorem check_entailment_ok_parses (ps : List String) (c : String) (b : Bool)
    (h : check_entailment ps c = .ok b) :
    (∀ p ∈ ps, ∃ r, formula_to_clauses p [] 4 = .ok r) ∧
      ∃ r, formula_to_clauses c [] 4 = .ok r := by
  unfold check_entailment at h
  cases hA : addPremises ps [] 4 with
  | error e =>
    rw [hA] at h
    exact Except.noConfusion h
  | ok wr =>
    rcases wr with ⟨w, tv⟩
    rw [hA] at h
    dsimp only at h
    refine ⟨addPremises_ok_parses ps [] 4 _ hA, ?_⟩
    cases hc : formula_to_clauses c w tv with
    | error e =>
      rw [hc] at h
      exact Except.noConfusion h
    | ok r => exact formula_to_clauses_ok_indep c w tv r hc

/-- A boolean verdict from `check_contradiction` certifies that every
premise parses. -/
theorem check_contradiction_ok_parses (ps : List String) (b : Bool)
    (h : check_contradiction ps = .ok b) :
    ∀ p ∈ ps, ∃ r, formula_to_clauses p [] 4 = .ok r := by
  unfold check_contradiction at h
  cases hA : addPremises ps [] 4 with
  | error e =>
    rw [hA] at h
    exact Except.noConfusion h
  | ok wr => exact addPremises_ok_parses ps [] 4 wr hA

/-! ## Per-connective emission, in general -/

theorem formula_to_clauses_atom (i : Fin 4) (w : List (List Int)) (tv : Nat) :
    formula_to_clauses (render (Fml.atom i)) w tv
      = .ok (((i.val + 1 : Nat) : Int), w, tv) :=
  ftcAux_atom i 1 w tv

theorem formula_to_clauses_not_enc (f : Fml) (hf : hasIff f = false)
    (w : List (List Int)) (tv : Nat) (a : Int) (cs : List (List Int)) (t : Nat)
    (hF : encFml f tv = (a, cs, t)) :
    formula_to_clauses (render (Fml.not f)) w tv = .ok (-a, w ++ cs, t) := by
  have h := formula_to_clauses_render (Fml.not f) (by simpa [hasIff] using hf) w tv
  rw [show encFml (Fml.not f) tv = (-a, cs, t) from by simp only [encFml, hF]] at h
  rw [h]

theorem formula_to_clauses_and_enc (f g : Fml) (hf : hasIff f = false)
    (hg : hasIff g = false) (w : List (List Int)) (tv : Nat)
    (a b : Int) (cs1 cs2 : List (List Int)) (t1 t2 : Nat)
    (hF : encFml f tv = (a, cs1, t1)) (hG : encFml g t1 = (b, cs2, t2)) :
    formula_to_clauses (render (Fml.and f g)) w tv
      = .ok (((t2 + 1 : Nat) : Int),
          w ++ cs1 ++ cs2 ++
            [[-((t2 + 1 : Nat) : Int), a], [-((t2 + 1 : Nat) : Int), b],
             [-a, -b, ((t2 + 1 : Nat) : Int)]],
          t2 + 1) := by
  have h := formula_to_clauses_render (Fml.and f g)
    (by simp [hasIff, hf, hg]) w tv
  rw [show encFml (Fml.and f g) tv
      = (((t2 + 1 : Nat) : Int),
        cs1 ++ cs2 ++ [[-((t2 + 1 : Nat) : Int), a], [-((t2 + 1 : Nat) : Int), b],
          [-a, -b, ((t2 + 1 : Nat) : Int)]],
        t2 + 1) from by simp only [encFml, hF, hG]] at h
  rw [h]
  simp [List.append_assoc]

theorem formula_to_clauses_or_enc (f g : Fml) (hf : hasIff f = false)
    (hg : hasIff g = false) (w : List (List Int)) (tv : Nat)
    (a b : Int) (cs1 cs2 : List (List Int)) (t1 t2 : Nat)
    (hF : encFml f tv = (a, cs1, t1)) (hG : encFml g t1 = (b, cs2, t2)) :
    formula_to_clauses (render (Fml.or f g)) w tv
      = .ok (((t2 + 1 : Nat) : Int),
          w ++ cs1 ++ cs2 ++
            [[-((t2 + 1 : Nat) : Int), a, b], [-a, ((t2 + 1 : Nat) : Int)],
             [-b, ((t2 + 1 : Nat) : Int)]],
          t2 + 1) := by
  have h := formula_to_clauses_render (Fml.or f g)
    (by simp [hasIff, hf, hg]) w tv
  rw [show encFml (Fml.or f g) tv
      = (((t2 + 1 : Nat) : Int),
        cs1 ++ cs2 ++ [[-((t2 + 1 : Nat) : Int), a, b], [-a, ((t2 + 1 : Nat) : Int)],
          [-b, ((t2 + 1 : Nat) : Int)]],
        t2 + 1) from by simp only [encFml, hF, hG]] at h
  rw [h]
  simp [List.append_assoc]

theorem formula_to_clauses_imp_enc (f g : Fml) (hf : hasIff f = false)
    (hg : hasIff g = false) (w : List (List Int)) (tv : Nat)
    (a b : Int) (cs1 cs2 : List (List Int)) (t1 t2 : Nat)
    (hF : encFml f tv = (a, cs1, t1)) (hG : encFml g t1 = (b, cs2, t2)) :
    formula_to_clauses (render (Fml.imp f g)) w tv
      = .ok (((t2 + 1 : Nat) : Int),
          w ++ cs1 ++ cs2 ++
            [[-((t2 + 1 : Nat) : Int), -a, b], [a, ((t2 + 1 : Nat) : Int)],
             [-b, ((t2 + 1 : Nat) : Int)]],
          t2 + 1) := by
  have h := formula_to_clauses_render (Fml.imp f g)
    (by simp [hasIff, hf, hg]) w tv
  rw [show encFml (Fml.imp f g) tv
      = (((t2 + 1 : Nat) : Int),
        cs1 ++ cs2 ++ [[-((t2 + 1 : Nat) : Int), -a, b], [a, ((t2 + 1 : Nat) : Int)],
          [-b, ((t2 + 1 : Nat) : Int)]],
        t2 + 1) from by simp only [encFml, hF, hG]] at h
  rw [h]
  simp [List.append_assoc]

theorem formula_to_clauses_iff_err (f g : Fml) (w : List (List Int)) (tv : Nat) :
    ∃ e, formula_to_clauses (render (Fml.iff f g)) w tv = .error e := by
  obtain ⟨e, he⟩ := ftcAux_hasIff_err (Fml.iff f g) rfl
    (render (Fml.iff f g)).data.length le_rfl w tv
  exact ⟨e, he⟩

/-! ## The claims -/

/-- **C1** (counterexample to the unrestricted claim): the biconditional
`(P <-> P)` is well-formed in the parser's notation (it is the exact
rendering of `P <-> P`) and is entailed by the premise `P`, yet
`check_entailment` aborts with a `ValueError` instead of returning a
boolean. -/
theorem claim_C1_counterexample :
    check_entailment ["P"] "(P <-> P)"
        = .error (.valueError "Could not parse formula: P <") ∧
      render (Fml.iff (Fml.atom 0) (Fml.atom 0)) = "(P <-> P)" ∧
      render (Fml.atom 0) = "P" ∧
      Entails [Fml.atom 0] (Fml.iff (Fml.atom 0) (Fml.atom 0)) :=
  ⟨by decide, rfl, rfl, by decide⟩

/-- **C1** (amended): for premises and conclusion that are well-formed
and `<->`-free, `check_entailment` returns `ok` of exactly the truth
value of semantic entailment (every assignment satisfying all premises
satisfies the conclusion), computed by asserting each premise literal
and the negated conclusion literal as unit clauses and asking the
oracle for unsatisfiability. -/
theorem claim_C1 (ps : List Fml) (c : Fml)
    (hps : ∀ f ∈ ps, hasIff f = false) (hc : hasIff c = false) :
    check_entailment (ps.map render) (render c) = .ok (decide (Entails ps c)) :=
  check_entailment_render ps c hps hc

theorem claim_C1_witness :
    (∀ f ∈ [Fml.and (Fml.atom 0) (Fml.atom 1)], hasIff f = false) ∧
      hasIff (Fml.atom 0) = false ∧
      check_entailment ([Fml.and (Fml.atom 0) (Fml.atom 1)].map render)
          (render (Fml.atom 0))
        = .ok (decide (Entails [Fml.and (Fml.atom 0) (Fml.atom 1)] (Fml.atom 0))) :=
  ⟨by decide, by decide, claim_C1 _ _ (by decide) (by decide)⟩

/-- **C2**: in the scan-loop encoder (`entailment_finder.py`), an atom
returns its pre-assigned variable with no new clauses, a negation
returns the negated literal of its subformula with no fresh variable
and no new clauses, and every rendered And/Or/Implies compound
allocates exactly one fresh variable `t2 + 1` and appends exactly the
three specified clauses after its subformulas' clauses — but the Iff
schema is dead code: every rendered biconditional aborts with a
`ValueError` instead of emitting the four biconditional clauses, which
the regex-based variant (`entailment_finder_interactive.py`,
`test_biconditional_generation.py`) does emit. -/
theorem claim_C2 :
    (∀ (i : Fin 4) (w : List (List Int)) (tv : Nat),
      formula_to_clauses (render (Fml.atom i)) w tv
        = .ok (((i.val + 1 : Nat) : Int), w, tv)) ∧
    (∀ (f : Fml), hasIff f = false →
      ∀ (w : List (List Int)) (tv : Nat) (a : Int) (cs : List (List Int)) (t : Nat),
        encFml f tv = (a, cs, t) →
        formula_to_clauses (render (Fml.not f)) w tv = .ok (-a, w ++ cs, t)) ∧
    (∀ (f g : Fml), hasIff f = false → hasIff g = false →
      ∀ (w : List (List Int)) (tv : Nat) (a b : Int) (cs1 cs2 : List (List Int))
        (t1 t2 : Nat), encFml f tv = (a, cs1, t1) → encFml g t1 = (b, cs2, t2) →
        formula_to_clauses (render (Fml.and f g)) w tv
          = .ok (((t2 + 1 : Nat) : Int),
              w ++ cs1 ++ cs2 ++
                [[-((t2 + 1 : Nat) : Int), a], [-((t2 + 1 : Nat) : Int), b],
                 [-a, -b, ((t2 + 1 : Nat) : Int)]],
              t2 + 1)) ∧
    (∀ (f g : Fml), hasIff f = false → hasIff g = false →
      ∀ (w : List (List Int)) (tv : Nat) (a b : Int) (cs1 cs2 : List (List Int))
        (t1 t2 : Nat), encFml f tv = (a, cs1, t1) → encFml g t1 = (b, cs2, t2) →
        formula_to_clauses (render (Fml.or f g)) w tv
          = .ok (((t2 + 1 : Nat) : Int),
              w ++ cs1 ++ cs2 ++
                [[-((t2 + 1 : Nat) : Int), a, b], [-a, ((t2 + 1 : Nat) : Int)],
                 [-b, ((t2 + 1 : Nat) : Int)]],
              t2 + 1)) ∧
    (∀ (f g : Fml), hasIff f = false → hasIff g = false →
      ∀ (w : List (List Int)) (tv : Nat) (a b : Int) (cs1 cs2 : List (List Int))
        (t1 t2 : Nat), encFml f tv = (a, cs1, t1) → encFml g t1 = (b, cs2, t2) →
        formula_to_clauses (render (Fml.imp f g)) w tv
          = .ok (((t2 + 1 : Nat) : Int),
              w ++ cs1 ++ cs2 ++
                [[-((t2 + 1 : Nat) : Int), -a, b], [a, ((t2 + 1 : Nat) : Int)],
                 [-b, ((t2 + 1 : Nat) : Int)]],
              t2 + 1)) ∧
    (∀ (f g : Fml) (w : List (List Int)) (tv : Nat),
      ∃ e, formula_to_clauses (render (Fml.iff f g)) w tv = .error e) ∧
    formula_to_clauses "(P <-> Q)" [] 4
      = .error (.valueError "Could not parse formula: P <") ∧
    formula_to_clauses_i "(P <-> Q)" [] 4
      = .ok (5, [[-5, -1, 2], [-5, -2, 1], [1, 2, 5], [-1, -2, 5]], 5) :=
  ⟨formula_to_clauses_atom, formula_to_clauses_not_enc, formula_to_clauses_and_enc,
   formula_to_clauses_or_enc, formula_to_clauses_imp_enc, formula_to_clauses_iff_err,
   by decide, by decide⟩

/-- **C3**: the scan-loop parser's depth tracking is correct — for any
rendered subformulas `f`, `g` the depth-zero split lands immediately
past `f`, never at an operator nested inside `f` or `g` — but a
top-level `<->` IS mis-split as `->`: the scan set `' &|-'` omits
`'<'`, so the match lands on the `'-'` of `<->` (index `|f| + 2`, not
`|f| + 1`), the operator token read there is `->`, and parsing the
biconditional aborts with a `ValueError` whose offending substring
ends in the orphaned `'<'`.  The regex-based variant does match `<->`
greedily before `->` (alternation order), but its greedy `(.*)`
ignores nesting depth: it splits the well-formed `(P -> (Q & R))` at
the `&` inside the parentheses and aborts, while the scan-loop parser
handles the same formula correctly. -/
theorem claim_C3 :
    (∀ f g : Fml, findSplit (renderL f ++ ' ' :: '&' :: ' ' :: renderL g) 0 0
        = some ((renderL f).length + 1)) ∧
    (∀ f g : Fml, findSplit (renderL f ++ ' ' :: '-' :: '>' :: ' ' :: renderL g) 0 0
        = some ((renderL f).length + 1)) ∧
    (∀ f g : Fml,
      findSplit (renderL f ++ ' ' :: '<' :: '-' :: '>' :: ' ' :: renderL g) 0 0
        = some ((renderL f).length + 2)) ∧
    findSplit "P <-> Q".data 0 0 = some 3 ∧
    (pySplit (pyIntDrop "P <-> Q".data 3)).head? = some ['-', '>'] ∧
    formula_to_clauses "((P & Q) <-> R)" [] 4
      = .error (.valueError "Could not parse formula: (P & Q) <") ∧
    reSearch "P <-> Q".data = some (1, ['<', '-', '>']) ∧
    formula_to_clauses_i "(P -> (Q & R))" [] 4
      = .error (.valueError "Could not parse formula: P -> (Q") ∧
    formula_to_clauses "(P -> (Q & R))" [] 4
      = .ok (6, [[-5, 2], [-5, 3], [-2, -3, 5], [-6, -1, 5], [1, 6], [-5, 6]], 6) :=
  ⟨findSplit_top_and, findSplit_top_imp, findSplit_top_iff,
   by decide, by decide, by decide, by decide, by decide, by decide⟩

/-- **C4**: a candidate accepted by the generate-and-filter loop (whose
premise lists are deduplicated and of size at least two) entails its
conclusion, has jointly satisfiable premises, a conclusion distinct
from every premise, every premise necessary (no single-premise removal
preserves entailment), and pairwise-distinct premises. -/
theorem claim_C4 (ps : List Fml) (c : Fml)
    (hdup : (List.map render ps).Nodup) (hlen : 1 < ps.length)
    (hacc : accepted (ps.map render) (render c) = true) :
    Entails ps c ∧ JointlySat ps ∧ render c ∉ List.map render ps ∧
      (∀ i, i < ps.length → ¬ Entails (removeAt ps i) c) ∧ ps.Nodup :=
  accepted_invariant ps c hdup hlen hacc

theorem claim_C4_witness :
    ((List.map render [Fml.imp (Fml.atom 0) (Fml.atom 1),
        Fml.imp (Fml.atom 1) (Fml.atom 2), Fml.atom 0]).Nodup ∧
      1 < [Fml.imp (Fml.atom 0) (Fml.atom 1),
        Fml.imp (Fml.atom 1) (Fml.atom 2), Fml.atom 0].length ∧
      accepted ([Fml.imp (Fml.atom 0) (Fml.atom 1),
          Fml.imp (Fml.atom 1) (Fml.atom 2), Fml.atom 0].map render)
        (render (Fml.atom 2)) = true) ∧
    (Entails [Fml.imp (Fml.atom 0) (Fml.atom 1),
        Fml.imp (Fml.atom 1) (Fml.atom 2), Fml.atom 0] (Fml.atom 2) ∧
      JointlySat [Fml.imp (Fml.atom 0) (Fml.atom 1),
        Fml.imp (Fml.atom 1) (Fml.atom 2), Fml.atom 0] ∧
      render (Fml.atom 2) ∉ List.map render [Fml.imp (Fml.atom 0) (Fml.atom 1),
        Fml.imp (Fml.atom 1) (Fml.atom 2), Fml.atom 0] ∧
      (∀ i, i < [Fml.imp (Fml.atom 0) (Fml.atom 1),
          Fml.imp (Fml.atom 1) (Fml.atom 2), Fml.atom 0].length →
        ¬ Entails (removeAt [Fml.imp (Fml.atom 0) (Fml.atom 1),
          Fml.imp (Fml.atom 1) (Fml.atom 2), Fml.atom 0] i) (Fml.atom 2)) ∧
      [Fml.imp (Fml.atom 0) (Fml.atom 1),
        Fml.imp (Fml.atom 1) (Fml.atom 2), Fml.atom 0].Nodup) :=
  ⟨⟨by decide, by decide, by decide⟩, claim_C4 _ _ (by decide) (by decide) (by decide)⟩

/-- **C5** (counterexample to the claim as stated): with the alias
arrow `→` the premises are never parsed — no alias normalization
exists anywhere in the engine, so `check_entailment` aborts with a
`ValueError` instead of returning `true`. -/
theorem claim_C5_counterexample :
    check_entailment ["(P → Q)", "(Q → R)", "P"] "R"
      = .error (.valueError "Could not parse formula: P →") := by
  decide

/-- **C5** (amended): with the canonical operator `->` the scenario
holds: `{(P -> Q), (Q -> R), P}` entails `R`, and dropping the premise
`P` breaks the entailment, so `P` is necessary. -/
theorem claim_C5 :
    check_entailment ["(P -> Q)", "(Q -> R)", "P"] "R" = .ok true ∧
    check_entailment ["(P -> Q)", "(Q -> R)"] "R" = .ok false :=
  ⟨by decide, by decide⟩

/-- **C6**: on `<->`-free well-formed inputs the minimal-premise filter
rejects exactly when some premise is redundant — its removal leaves a
set that still entails the conclusion — and a single-premise set is
accepted unconditionally, without any removal-entailment check. -/
theorem claim_C6 (ps : List Fml) (c : Fml)
    (hps : ∀ f ∈ ps, hasIff f = false) (hc : hasIff c = false) :
    (necessity_filter (ps.map render) (render c) = false ↔
      (1 < ps.length ∧ ∃ i, i < ps.length ∧ Entails (removeAt ps i) c)) ∧
    ∀ (p conclusion : String), necessity_filter [p] conclusion = true :=
  ⟨necessity_filter_iff ps c hps hc, fun _ _ => rfl⟩

theorem claim_C6_witness :
    ((∀ f ∈ [Fml.atom 0, Fml.atom 1], hasIff f = false) ∧
      hasIff (Fml.atom 0) = false) ∧
    ((necessity_filter ([Fml.atom 0, Fml.atom 1].map render)
        (render (Fml.atom 0)) = false ↔
      (1 < [Fml.atom 0, Fml.atom 1].length ∧
        ∃ i, i < [Fml.atom 0, Fml.atom 1].length ∧
          Entails (removeAt [Fml.atom 0, Fml.atom 1] i) (Fml.atom 0))) ∧
      ∀ (p conclusion : String), necessity_filter [p] conclusion = true) :=
  ⟨⟨by decide, by decide⟩, claim_C6 _ _ (by decide) (by decide)⟩

/-- **C7** (counterexample to the claim as stated): the malformed
premise `(   )` aborts `check_entailment` with an `IndexError`, a typed
error that names no offending substring (it is distinct from every
`ValueError s`), contradicting "a typed parse error naming the
offending substring". -/
theorem claim_C7_counterexample :
    check_entailment ["(   )"] "P" = .error PyErr.indexError ∧
    ∀ s : String, PyErr.indexError ≠ PyErr.valueError s :=
  ⟨by decide, fun s h => PyErr.noConfusion h⟩

/-- **C7** (amended): a parse failure in any premise or in the
conclusion aborts `check_entailment` and `check_contradiction` with a
typed error — a `ValueError` naming the offending substring, or an
`IndexError` (naming nothing) when the operator-token extraction finds
no token — and the engine never converts a parse failure into the
answer "not entailed": whenever either function returns a boolean,
every premise and the conclusion parse successfully (the universal
contrapositive, first two conjuncts). -/
theorem claim_C7 :
    (∀ (ps : List String) (c : String) (b : Bool),
      check_entailment ps c = .ok b →
        (∀ p ∈ ps, ∃ r, formula_to_clauses p [] 4 = .ok r) ∧
          ∃ r, formula_to_clauses c [] 4 = .ok r) ∧
    (∀ (ps : List String) (b : Bool),
      check_contradiction ps = .ok b →
        ∀ p ∈ ps, ∃ r, formula_to_clauses p [] 4 = .ok r) ∧
    (∀ (rest : List String) (c : String),
      check_entailment ("(   )" :: rest) c = .error PyErr.indexError) ∧
    (∀ rest : List String,
      check_contradiction ("(   )" :: rest) = .error PyErr.indexError) ∧
    check_entailment ["P"] "(   )" = .error PyErr.indexError ∧
    check_entailment ["P Q"] "R"
      = .error (.valueError "Could not parse formula: P Q") ∧
    check_entailment ["P"] "Q R"
      = .error (.valueError "Could not parse formula: Q R") :=
  ⟨check_entailment_ok_parses, check_contradiction_ok_parses,
   fun _ _ => rfl, fun _ => rfl, by decide, by decide, by decide⟩

/-- **C8** (counterexample to the claim as stated): the well-formed
biconditional `(P <-> P)` does not entail itself according to
`check_entailment` — the call aborts with a `ValueError` rather than
returning `true`. -/
theorem claim_C8_counterexample :
    check_entailment ["(P <-> P)"] "(P <-> P)"
      = .error (.valueError "Could not parse formula: P <") := by
  decide

/-- **C8** (amended): every well-formed `<->`-free formula entails
itself: `check_entailment` on the singleton premise `f` and conclusion
`f` returns `ok true`, even though the two occurrences are encoded with
distinct auxiliary variables in one session. -/
theorem claim_C8 (f : Fml) (hf : hasIff f = false) :
    check_entailment [render f] (render f) = .ok true := by
  have h := check_entailment_render [f] f
    (by intro g hg; rcases List.mem_singleton.mp hg with rfl; exact hf) hf
  rw [show List.map render [f] = [render f] from rfl] at h
  have hEnt : Entails [f] f := fun α hα => hα f (List.mem_singleton.mpr rfl)
  rw [h, decide_eq_true hEnt]

theorem claim_C8_witness :
    hasIff (Fml.and (Fml.atom 0) (Fml.atom 1)) = false ∧
      check_entailment [render (Fml.and (Fml.atom 0) (Fml.atom 1))]
        (render (Fml.and (Fml.atom 0) (Fml.atom 1))) = .ok true :=
  ⟨by decide, claim_C8 _ (by decide)⟩

/-- **C9**: for every recursion depth, random stream, and stream
position, a formula produced by the palette-parameterized generator
with the bundle `{'binary': ['&', '->']}` contains no `|`, no `~`, and
no `<->` substring — only atoms, `&`, `->`, parentheses, and spaces. -/
theorem claim_C9 (d k : Nat) (r : RandSrc) :
    '|' ∉ (generate_formula basicConnectives r d k).1.data ∧
    '~' ∉ (generate_formula basicConnectives r d k).1.data ∧
    ¬ List.IsInfix ['<', '-', '>'] (generate_formula basicConnectives r d k).1.data := by
  refine ⟨fun h => ?_, fun h => ?_, fun h => ?_⟩
  · exact absurd (generate_basic_chars d k r '|' h) (by decide)
  · exact absurd (generate_basic_chars d k r '~' h) (by decide)
  · have h2 : '<' ∈ (generate_formula basicConnectives r d k).1.data :=
      h.subset (by decide)
    exact absurd (generate_basic_chars d k r '<' h2) (by decide)

/-- **C10**: on any string without the character `v` — in particular
every formula over the engine's internal alphabet — converting to the
student-facing notation and back is the identity: the only non-identity
rewrite of `standardize_symbols` maps `|` to `v`, and
`restore_internal_symbols` exactly inverts it. -/
theorem claim_C10 (s : String) (h : 'v' ∉ s.data) :
    restore_internal_symbols (standardize_symbols s) = s := by
  rw [standardize_symbols_eq, restore_internal_symbols_eq]
  show String.mk ((s.data.map fun c => if c = '|' then 'v' else c).map
    fun c => if c = 'v' then '|' else c) = s
  rw [List.map_map]
  have h1 : ∀ c ∈ s.data,
      ((fun c => if c = 'v' then '|' else c) ∘ fun c => if c = '|' then 'v' else c) c
        = id c := by
    intro c hc
    simp only [Function.comp_apply, id_eq]
    by_cases h2 : c = '|'
    · rw [if_pos h2, if_pos rfl, h2]
    · rw [if_neg h2, if_neg (fun hv : c = 'v' => h (hv ▸ hc))]
  rw [List.map_congr_left h1, List.map_id]

theorem claim_C10_witness :
    'v' ∉ "(P | Q)".data ∧
      restore_internal_symbols (standardize_symbols "(P | Q)") = "(P | Q)" :=
  ⟨by decide, claim_C10 _ (by decide)⟩
